import Mathlib

/-! Segmental tokenizer chart, checkpoint copies and parser test driver of twpipe.

A shallow embedding of

* `SegmentalRNNTokenizeModel::decode` and `SegmentalRNNTokenizeModel::objective`
  (`src/tokenizer/seg_rnn_tokenize_model.h`),
* the checkpoint record of `Ballesteros15Model`
  (`src/parser/parse_model_ballesteros15.h`),
* the input read loop of `src/parser/test_from.cc`.

Conventions of the embedding.

* `unsigned` values are natural numbers; every subtraction of the source is guarded by a
  comparison, and sentence lengths are taken to stay below `2 ^ 32`.
* A `dynet::Expression` is represented by its scalar value in a type `α` of scores.  The
  neural scorer `factor_score` is a parameter: a function of the character ids of the
  sentence and of the two span ends.  The theorems on exact sums take `α` to be an ordered
  group or the reals; `F32` takes it to be the integer-valued single-precision numbers,
  with rounded addition.
* A `std::vector` that the source fills cell by cell in increasing index order is a list
  holding the cells written so far.
* Failed `BOOST_ASSERT`s, reads past the end of a vector and reads of never assigned
  expressions are results `Except.error` of type `Fault`.
* `decode` and `objective` start from the character units of the whitespace-cleaned text:
  the replacement of runs of spaces (`std::regex_replace`) and the cut into UTF-8 units
  (`utf8_len`) come before the code embedded here.
-/

namespace twpipe

/-- The ways an operation of the embedding can stop without a result. -/
inductive Fault
  /-- the assertion `f.size() > 0` ("There should be a result!") of `decode` fails -/
  | assert_result
  /-- the assertion `cur < n_chars` ("segment index greater than sentence length") fails -/
  | assert_segment_index
  /-- the assertion `j <= n_chars` ("end of segment is greater than the input sentence")
  fails -/
  | assert_segment_end
  /-- a vector is indexed past its end -/
  | out_of_range
  /-- a default-constructed expression, never assigned, is used as an operand -/
  | unassigned
  /-- the iteration budget given to a `while` loop of the embedding ran out -/
  | not_finished
  /-- the exception `bad_lexical_cast` of `boost::lexical_cast` -/
  | bad_lexical_cast
  /-- a `StateCheckpoint *` that points to no live checkpoint is dereferenced -/
  | bad_pointer
  /-- an action that is not legal in the current configuration is applied: the program
  aborts -/
  | illegal_action
  deriving DecidableEq, Repr

/-! ## The segmental tokenizer: `decode` -/

section Decode

variable {α : Type} [Add α] [LT α] [DecidableRel (fun a b : α => a < b)]

/-- Line 81: `char_map.contains(ch) ? char_map.get(ch) : char_map.get(Corpus::UNK)`.
The alphabet is a partial map from strings to ids, `unk_cid` is the id of `Corpus::UNK`. -/
def decode_cid (char_map : String → Option Nat) (unk_cid : Nat) (ch : String) : Nat :=
  match char_map ch with
  | some cid => cid
  | none => unk_cid

/-- Line 110: `unsigned i_start = (j < max_seg_len ? 0 : j - max_seg_len);` -/
def decode_i_start (max_seg_len j : Nat) : Nat :=
  if j < max_seg_len then 0 else j - max_seg_len

/-- Lines 111-119: the inner loop `for (i = i_start; i < j; ++i)` of `decode`; it returns
the vectors `f` and `ijt`.  `alpha` holds the cells `alpha[0 .. j-1]`; cell `0` is the
default-constructed expression `unset`, which the branch `i == 0` never reads. -/
def decode_candidates (factor : Nat → Nat → α) (unset : α) (alpha : List α)
    (j i_start : Nat) : List α × List (Nat × Nat) :=
  ((List.range' i_start (j - i_start)).map
      (fun i => if i = 0 then factor i j else factor i j + alpha.getD i unset),
   (List.range' i_start (j - i_start)).map (fun i => (i, j)))

/-- Lines 123-126: the scan `for (id = 1; id < f.size(); ++id)` over the remaining values,
started at position `id` with the running `max_id` and `max_val`; it returns `max_id`. -/
def max_scan : List α → Nat → Nat → α → Nat
  | [], _, max_id, _ => max_id
  | val :: rest, id, max_id, max_val =>
      if max_val < val then max_scan rest (id + 1) id val
      else max_scan rest (id + 1) max_id max_val

/-- Lines 108-128: one iteration of the chart loop of `decode`, for the end position `j`,
on the state `(alpha, it)`. -/
def decode_step (factor : Nat → Nat → α) (unset : α) (max_seg_len j : Nat)
    (st : List α × List (Nat × Nat)) : Except Fault (List α × List (Nat × Nat)) :=
  match decode_candidates factor unset st.1 j (decode_i_start max_seg_len j) with
  | ([], _) => .error .assert_result
  | (v0 :: rest, ijt) =>
      match (v0 :: rest)[max_scan rest 1 0 v0]?, ijt[max_scan rest 1 0 v0]? with
      | some a, some s => .ok (st.1 ++ [a], st.2 ++ [s])
      | _, _ => .error .out_of_range

/-- Lines 101-129: the state `(alpha, it)` after the iterations `j = 1 .. k` of the chart
loop.  `it` starts as `[(0, 0)]` (line 106). -/
def decode_chart (factor : Nat → Nat → α) (unset : α) (max_seg_len : Nat) :
    Nat → Except Fault (List α × List (Nat × Nat))
  | 0 => .ok ([unset], [(0, 0)])
  | k + 1 =>
      match decode_chart factor unset max_seg_len k with
      | .error e => .error e
      | .ok st => decode_step factor unset max_seg_len (k + 1) st

/-- Lines 137-140: `word += chars[i]` over the units of a span. -/
def concat_units (units : List String) : String :=
  units.foldl (fun word ch => word ++ ch) ""

/-- The cells `v[i]` for `cur_i <= i < cur_j` of a vector. -/
def span_of {β : Type} (v : List β) (cur_i cur_j : Nat) : List β :=
  (v.drop cur_i).take (cur_j - cur_i)

/-- Line 135: the span holds only units whose id is `space_cid`. -/
def all_space (space_cid : Nat) (cids : List Nat) (cur_i cur_j : Nat) : Bool :=
  (span_of cids cur_i cur_j).all (fun cid => cid == space_cid)

/-- Lines 132-144: the loop `while (cur_j > 0)`, given a budget of iterations.  `output` is
the vector in storage order (`push_back` appends at the end). -/
def backtrace (space_cid : Nat) (cids : List Nat) (chars : List String)
    (it : List (Nat × Nat)) : Nat → Nat → List String → Except Fault (List String)
  | _, 0, output => .ok output
  | 0, _ + 1, _ => .error .not_finished
  | fuel + 1, cur_j + 1, output =>
      match it[cur_j + 1]? with
      | none => .error .out_of_range
      | some (cur_i, _) =>
          backtrace space_cid cids chars it fuel cur_i
            (if all_space space_cid cids cur_i (cur_j + 1) then output
             else output ++ [concat_units (span_of chars cur_i (cur_j + 1))])

/-- Lines 68-146: `decode`, from the character units of the whitespace-cleaned input.
`net cids i j` is `factor_score(i, j, false)` on the chart built from the sentence;
`output` is the content of the argument vector on entry. -/
def decode (net : List Nat → Nat → Nat → α) (unset : α) (max_seg_len space_cid : Nat)
    (char_map : String → Option Nat) (unk_cid : Nat)
    (clean_units : List String) (output : List String) : Except Fault (List String) :=
  match decode_chart (net (clean_units.map (decode_cid char_map unk_cid))) unset max_seg_len
      clean_units.length with
  | .error e => .error e
  | .ok st =>
      match backtrace space_cid (clean_units.map (decode_cid char_map unk_cid)) clean_units
          st.2 clean_units.length clean_units.length output with
      | .error e => .error e
      | .ok out => .ok out.reverse

end Decode

/-! ## Scores in single precision -/

/-- The spacing of the single-precision numbers around the magnitude `m`: `1` below
`2 ^ 24`, and twice as much for every further bit of `m`.  The first argument bounds the
number of doublings (a finite `float` has at most 128 bits before the point). -/
def f32_ulp : Nat → Nat → Nat
  | 0, _ => 1
  | fuel + 1, m => if m < 2 ^ 24 then 1 else 2 * f32_ulp fuel (m / 2)

/-- The single-precision number nearest to the integer `x` (24 significant bits, ties to
the even significand), for magnitudes below `2 ^ 128`. -/
def f32_round (x : Int) : Int :=
  if x < 0 then
    -(((if f32_ulp 104 x.natAbs < 2 * (x.natAbs % f32_ulp 104 x.natAbs) ∨
          (2 * (x.natAbs % f32_ulp 104 x.natAbs) = f32_ulp 104 x.natAbs ∧
            (x.natAbs / f32_ulp 104 x.natAbs) % 2 = 1)
        then x.natAbs / f32_ulp 104 x.natAbs + 1 else x.natAbs / f32_ulp 104 x.natAbs) *
      f32_ulp 104 x.natAbs : Nat) : Int)
  else
    (((if f32_ulp 104 x.natAbs < 2 * (x.natAbs % f32_ulp 104 x.natAbs) ∨
          (2 * (x.natAbs % f32_ulp 104 x.natAbs) = f32_ulp 104 x.natAbs ∧
            (x.natAbs / f32_ulp 104 x.natAbs) % 2 = 1)
        then x.natAbs / f32_ulp 104 x.natAbs + 1 else x.natAbs / f32_ulp 104 x.natAbs) *
      f32_ulp 104 x.natAbs : Nat) : Int)

/-- An integer-valued score held in a `float`, the type in which `dynet` evaluates the
expressions of the chart (lines 116 and 122-125). -/
structure F32 where
  /-- the value, a single-precision number that is an integer -/
  val : Int
  deriving DecidableEq, Repr

/-- Addition of two integer-valued `float`s: the exact sum, rounded to the nearest
single-precision number. -/
instance F32.instAdd : Add F32 := ⟨fun a b => ⟨f32_round (a.val + b.val)⟩⟩

/-- The order of `float`s, on integer values. -/
instance F32.instLT : LT F32 := ⟨fun a b => a.val < b.val⟩

/-- The comparison `max_val < val` of line 125 on integer-valued `float`s. -/
instance F32.instDecidableLT : DecidableRel (fun a b : F32 => a < b) :=
  fun a b => Int.decLt a.val b.val

/-- The scores of the rounding example: `factor(0, 1) = 2 ^ 24`, `factor(1, 2) = 1` and
`2 ^ 24` for every other span. -/
def rounding_factor (i j : Nat) : F32 :=
  if i = 0 ∧ j = 1 then ⟨16777216⟩ else if i = 1 ∧ j = 2 then ⟨1⟩ else ⟨16777216⟩

/-! ## The segmental tokenizer: `objective` -/

/-- An input unit of an instance; `objective` reads only the character ids of a token. -/
structure InputUnit where
  /-- the character ids of the token -/
  cids : List Nat
  deriving Repr

/-- What `objective` returns. -/
inductive Returned (α : Type)
  /-- line 182: `return dynet::zeroes((*merge.B.pg), {1});` before any chart is built -/
  | zeroes
  /-- line 226: `return alpha.back() - ref_alpha.back();`, with the value of the difference -/
  | loss (value : α)
  deriving Repr

/-- The scalar value of the returned expression. -/
def Returned.value {α : Type} [Zero α] : Returned α → α
  | .zeroes => 0
  | .loss value => value

/-- Lines 156-172: the walk over the units of the cleaned sentence that derives
`segmentation`; the first argument lists the ids of the units still to be read, `j` and
`k` are the token index and the count of characters matched in the current token. -/
def walk_segmentation (space_cid : Nat) (input_units : List InputUnit) :
    List Nat → Nat → Nat → List Nat → Except Fault (List Nat)
  | [], _, _, segmentation => .ok segmentation
  | cid :: rest, j, k, segmentation =>
      if cid ≠ space_cid then
        match input_units[j]? with
        | none => .error .out_of_range
        | some unit =>
            if k + 1 = unit.cids.length then
              walk_segmentation space_cid input_units rest (j + 1) 0
                (segmentation ++ [unit.cids.length])
            else walk_segmentation space_cid input_units rest j (k + 1) segmentation
      else walk_segmentation space_cid input_units rest j k (segmentation ++ [1])

/-- Lines 176-189: the reference-marking loop over the durations still to be read, from
the position `cur` and the table `is_ref`.  The result `none` is the early return of
line 182. -/
def mark_refs (n_chars max_seg_len : Nat) :
    List Nat → Nat → (Nat → Nat → Bool) → Except Fault (Option (Nat → Nat → Bool))
  | [], _, is_ref => .ok (some is_ref)
  | dur :: rest, cur, is_ref =>
      if ¬ cur < n_chars then .error .assert_segment_index
      else if dur > max_seg_len then .ok none
      else if ¬ cur + dur ≤ n_chars then .error .assert_segment_end
      else mark_refs n_chars max_seg_len rest (cur + dur)
        (fun i j => if i = cur ∧ j = cur + dur then true else is_ref i j)

/-- Line 211: `i_start = max_seg_len ? (j < max_seg_len ? 0 : j - max_seg_len) : 0;` -/
def objective_i_start (max_seg_len j : Nat) : Nat :=
  if max_seg_len ≠ 0 then (if j < max_seg_len then 0 else j - max_seg_len) else 0

section Objective

variable {α : Type} [Add α]

/-- Lines 212-223: the inner loop of the chart of `objective` over the start positions
still to be visited, with the vector `f` and the cell `ref_alpha[j]` so far (`none` is a
cell never assigned).  `alpha` and `ref_alpha` hold the cells `0 .. j-1`. -/
def objective_inner (factor : Nat → Nat → α) (is_ref : Nat → Nat → Bool) (unset : α)
    (alpha : List α) (ref_alpha : List (Option α)) (j : Nat) :
    List Nat → List α → Option α → Except Fault (List α × Option α)
  | [], f, ref_j => .ok (f, ref_j)
  | i :: rest, f, ref_j =>
      if i = 0 then
        objective_inner factor is_ref unset alpha ref_alpha j rest (f ++ [factor i j])
          (if is_ref i j then some (factor i j) else ref_j)
      else if is_ref i j then
        match ref_alpha.getD i none with
        | none => .error .unassigned
        | some r =>
            objective_inner factor is_ref unset alpha ref_alpha j rest
              (f ++ [factor i j + alpha.getD i unset]) (some (factor i j + r))
      else
        objective_inner factor is_ref unset alpha ref_alpha j rest
          (f ++ [factor i j + alpha.getD i unset]) ref_j

/-- Lines 210-224: one iteration of the chart loop of `objective`, for the end position
`j`, on the state `(alpha, ref_alpha)`; `logsumexp` is `dynet::logsumexp`. -/
def objective_step (logsumexp : List α → α) (factor : Nat → Nat → α)
    (is_ref : Nat → Nat → Bool) (unset : α) (max_seg_len j : Nat)
    (st : List α × List (Option α)) : Except Fault (List α × List (Option α)) :=
  match objective_inner factor is_ref unset st.1 st.2 j
      (List.range' (objective_i_start max_seg_len j) (j - objective_i_start max_seg_len j))
      [] none with
  | .error e => .error e
  | .ok (f, ref_j) => .ok (st.1 ++ [logsumexp f], st.2 ++ [ref_j])

/-- Lines 207-225: the state `(alpha, ref_alpha)` after the iterations `j = 1 .. k` of the
chart loop of `objective`. -/
def objective_chart (logsumexp : List α → α) (factor : Nat → Nat → α)
    (is_ref : Nat → Nat → Bool) (unset : α) (max_seg_len : Nat) :
    Nat → Except Fault (List α × List (Option α))
  | 0 => .ok ([unset], [none])
  | k + 1 =>
      match objective_chart logsumexp factor is_ref unset max_seg_len k with
      | .error e => .error e
      | .ok st => objective_step logsumexp factor is_ref unset max_seg_len (k + 1) st

/-- Lines 174-227: `objective` from `n_chars` and the derived `segmentation` on. -/
def objective_from [Sub α] (logsumexp : List α → α) (factor : Nat → Nat → α) (unset : α)
    (max_seg_len n_chars : Nat) (segmentation : List Nat) : Except Fault (Returned α) :=
  match mark_refs n_chars max_seg_len segmentation 0 (fun _ _ => false) with
  | .error e => .error e
  | .ok none => .ok .zeroes
  | .ok (some is_ref) =>
      match objective_chart logsumexp factor is_ref unset max_seg_len n_chars with
      | .error e => .error e
      | .ok st =>
          match st.1.getLast?, st.2.getLast? with
          | some a, some (some r) => .ok (.loss (a - r))
          | _, _ => .error .unassigned

/-- Lines 148-227: `objective`, from the character units of the whitespace-cleaned raw
sentence.  `char_map_get` is `char_map.get`, `net cids i j` is `factor_score(i, j, true)`
on the chart built from the sentence. -/
def objective [Sub α] (logsumexp : List α → α) (net : List Nat → Nat → Nat → α) (unset : α)
    (max_seg_len space_cid : Nat) (char_map_get : String → Nat)
    (input_units : List InputUnit) (clean_units : List String) :
    Except Fault (Returned α) :=
  match walk_segmentation space_cid input_units (clean_units.map char_map_get) 1 0 [] with
  | .error e => .error e
  | .ok segmentation =>
      objective_from logsumexp (net (clean_units.map char_map_get)) unset max_seg_len
        (clean_units.map char_map_get).length segmentation

end Objective

/-! ## The checkpoints of `Ballesteros15Model` -/

/-- The record `Ballesteros15Model::StateCheckpointImpl` (lines 16-25).  `E` stands for
`dynet::Expression`; a `dynet::RNNPointer` is an integer. -/
structure StateCheckpointImpl (E : Type) where
  /-- position in the history of the stack LSTM -/
  s_pointer : Int
  /-- position in the history of the buffer LSTM -/
  q_pointer : Int
  /-- position in the history of the action LSTM -/
  a_pointer : Int
  /-- the expressions mirroring the stack -/
  stack : List E
  /-- the expressions mirroring the buffer -/
  buffer : List E

/-- The checkpoint objects a `StateCheckpoint *` can point to, by address; `none` is an
object that was destroyed. -/
abbrev CheckpointHeap (E : Type) : Type := List (Option (StateCheckpointImpl E))

/-- Modelled from the spec: the histories of the three recurrent encoders `s_lstm`,
`q_lstm` and `a_lstm` (lines 91-93), whose class is not part of the sources at hand.  The
specification makes each history an "arena of immutable history entries indexed by integer
position"; the pointers of a checkpoint are positions in these lists. -/
structure Encoders (E : Type) where
  /-- the entries of the stack LSTM -/
  s_history : List E
  /-- the entries of the buffer LSTM -/
  q_history : List E
  /-- the entries of the action-history LSTM -/
  a_history : List E

/-- The memory a decode episode works on: the encoders of the model and the checkpoint
objects of its search paths. -/
structure ParserMemory (E : Type) where
  /-- the three recurrent encoders of the model -/
  encoders : Encoders E
  /-- the checkpoints allocated so far -/
  heap : CheckpointHeap E

/-- Modelled from the spec: what an action functor
(`TransitionSystemFunction::perform_action`, lines 28-36, bodies not at hand) does with the
encoders and the checkpoint it receives by reference.  By 4.1 (c) it "append[s] the new
stack/buffer top representations and the action embedding to their respective recurrent
histories, advancing the corresponding pointer", and by section 5 "new branches only append,
never mutate history in place": the effect is the entries appended to each history and the
new content of the checkpoint. -/
structure FunctorEffect (E : Type) where
  /-- entries appended to the history of the stack LSTM -/
  s_append : List E
  /-- entries appended to the history of the buffer LSTM -/
  q_append : List E
  /-- entries appended to the history of the action-history LSTM -/
  a_append : List E
  /-- the pointers and expression stacks of the checkpoint after the action -/
  checkpoint : StateCheckpointImpl E

/-- Modelled from the spec: `Ballesteros15Model::copy_checkpoint`, declared at line 162,
whose body is not part of the sources at hand.  The specification has it "duplicate
pointers and expression-stack contents without re-deriving them" and give "full
independent ownership of its pointer/expression-stack fields": a new object is allocated
and receives the five fields of the original; its address is returned.  The encoders are
not touched. -/
def copy_checkpoint {E : Type} (memory : ParserMemory E) (checkpoint : Nat) :
    Except Fault (ParserMemory E × Nat) :=
  match memory.heap[checkpoint]? with
  | some (some c) =>
      .ok ({ memory with
              heap := memory.heap ++
                [some { s_pointer := c.s_pointer, q_pointer := c.q_pointer,
                        a_pointer := c.a_pointer, stack := c.stack, buffer := c.buffer }] },
           memory.heap.length)
  | _ => .error .bad_pointer

/-- Modelled from the spec: `Ballesteros15Model::perform_action`, declared at lines
155-158, whose body is not part of the sources at hand.  By 4.1 `apply` "validates
legality", an illegal action being "a programming-error-level fault (aborts loudly)", then
"delegates ... push/pop of the three recurrent histories to the matching Transition-System
Action Functor".  Legality "is a pure function of the current symbolic configuration":
`is_legal` is the predicate of the transition system on the `state` handed in (a
`const State &`), and `sys_func` is the action functor of the scheme. -/
def perform_action {E S : Type} (is_legal : S → Nat → Bool)
    (sys_func : Nat → Encoders E → StateCheckpointImpl E → FunctorEffect E)
    (action : Nat) (state : S) (memory : ParserMemory E) (checkpoint : Nat) :
    Except Fault (ParserMemory E) :=
  if is_legal state action = false then .error .illegal_action
  else
    match memory.heap[checkpoint]? with
    | some (some c) =>
        .ok { encoders :=
                { s_history := memory.encoders.s_history ++
                    (sys_func action memory.encoders c).s_append,
                  q_history := memory.encoders.q_history ++
                    (sys_func action memory.encoders c).q_append,
                  a_history := memory.encoders.a_history ++
                    (sys_func action memory.encoders c).a_append },
              heap := memory.heap.set checkpoint
                (some (sys_func action memory.encoders c).checkpoint) }
    | _ => .error .bad_pointer

/-- A sample checkpoint: one expression on the stack, one in the buffer. -/
def sample_checkpoint : StateCheckpointImpl Nat :=
  { s_pointer := 1, q_pointer := 2, a_pointer := 3, stack := [10], buffer := [20] }

/-- A sample memory: histories with a few entries and the sample checkpoint at address 0. -/
def sample_memory : ParserMemory Nat :=
  { encoders := { s_history := [7, 10], q_history := [8, 9, 20], a_history := [0, 1, 2, 3] },
    heap := [some sample_checkpoint] }

/-- A sample action functor, a shift: the front of the buffer is moved onto the stack, the
moved expression and the action are appended to the histories, and the three pointers are
moved. -/
def sample_functor (action : Nat) (encoders : Encoders Nat)
    (checkpoint : StateCheckpointImpl Nat) : FunctorEffect Nat :=
  { s_append := checkpoint.buffer.take 1, q_append := [], a_append := [action],
    checkpoint :=
      { s_pointer := encoders.s_history.length, q_pointer := checkpoint.q_pointer - 1,
        a_pointer := encoders.a_history.length,
        stack := checkpoint.stack ++ checkpoint.buffer.take 1,
        buffer := checkpoint.buffer.drop 1 } }

/-- A sample legality predicate on configurations given by the length of their buffer:
action 0, the shift, needs a buffer that is not empty; no other action is legal. -/
def sample_legal (buffer_length : Nat) (action : Nat) : Bool :=
  action == 0 && 0 < buffer_length

/-! ## The read loop of the parser test driver (`test_from.cc`) -/

/-- The variables of `main` that the read loop updates (lines 112-124), and the calls
`tester->test(...)` made so far. -/
structure DriverState where
  /-- the vector `tokens` -/
  tokens : List (List Char)
  /-- the vector `postags` -/
  postags : List (List Char)
  /-- the vector `heads` -/
  heads : List Nat
  /-- the vector `deprels` -/
  deprels : List (List Char)
  /-- the vector `actions` -/
  actions : List Nat
  /-- the counter `sid` -/
  sid : Nat
  /-- the arguments `(tokens, postags, heads, deprels, actions)` of every call of
  `tester->test`, in order -/
  tested :
    List (List (List Char) × List (List Char) × List Nat × List (List Char) × List Nat)

/-- Lines 112-119 and 124: the state before the first line is read.  `BAD_HED` and `BAD0`
are `twpipe::Corpus::BAD_HED` and `twpipe::Corpus::BAD0`. -/
def initial_state (BAD_HED : Nat) (BAD0 : List Char) : DriverState :=
  { tokens := [], postags := [], heads := [BAD_HED], deprels := [BAD0], actions := [],
    sid := 0, tested := [] }

/-- The characters `std::isspace` accepts in the classic locale: the space and the
controls `\t`, `\n`, `\v`, `\f`, `\r`. -/
def isspace (c : Char) : Bool :=
  c == ' ' || (9 ≤ c.toNat && c.toNat ≤ 13)

/-- Line 126: `boost::algorithm::trim(buffer)`. -/
def trim (buffer : List Char) : List Char :=
  ((buffer.dropWhile isspace).reverse.dropWhile isspace).reverse

/-- Line 145: `boost::algorithm::starts_with(buffer, test)`. -/
def starts_with : List Char → List Char → Bool
  | _, [] => true
  | [], _ :: _ => false
  | c :: cs, t :: ts => c == t && starts_with cs ts

/-- Line 151: `boost::algorithm::split(data, buffer, boost::is_any_of("\t "))`, without
token compression: the field being read is `field`, in reverse. -/
def split_fields : List Char → List Char → List (List Char)
  | [], field => [field.reverse]
  | c :: cs, field =>
      if c == Char.ofNat 9 || c == ' ' then field.reverse :: split_fields cs []
      else split_fields cs (c :: field)

/-- Lines 126-161: the body of the read loop on one line of the input file.
Here `lexical_cast` is `boost::lexical_cast<unsigned>`, with `none` where it throws.  What
`tester->test` writes into the vectors it is handed does not reach the state after the
line, all five being cleared right after the call; `prob` and the JSON line printed from it
are left out. -/
def read_line (lexical_cast : List Char → Option Nat) (BAD_HED : Nat) (BAD0 : List Char)
    (st : DriverState) (line : List Char) : Except Fault DriverState :=
  if trim line = [] then
    .ok { tokens := [], postags := [], heads := [BAD_HED], deprels := [BAD0],
          actions := [], sid := st.sid + 1,
          tested := st.tested ++
            [(st.tokens, st.postags, st.heads, st.deprels, st.actions)] }
  else if starts_with (trim line) ['#', 'A', 'C', 'T', 'I', 'O', 'N', ' '] then
    match lexical_cast ((trim line).drop 8) with
    | none => .error .bad_lexical_cast
    | some id => .ok { st with actions := st.actions ++ [id] }
  else if (trim line).head? = some '#' then .ok st
  else
    match (split_fields (trim line) [])[1]?, (split_fields (trim line) [])[3]?,
        (split_fields (trim line) [])[6]? with
    | some word, some pos, some head =>
        if head = ['_'] then
          .ok { st with tokens := st.tokens ++ [word], postags := st.postags ++ [pos],
                        heads := st.heads ++ [BAD_HED], deprels := st.deprels ++ [BAD0] }
        else
          match lexical_cast head with
          | none => .error .bad_lexical_cast
          | some h =>
              match (split_fields (trim line) [])[7]? with
              | none => .error .out_of_range
              | some rel =>
                  .ok { st with tokens := st.tokens ++ [word],
                                postags := st.postags ++ [pos],
                                heads := st.heads ++ [h], deprels := st.deprels ++ [rel] }
    | _, _, _ => .error .out_of_range

/-- Lines 125-162: the loop `while (std::getline(ifs, buffer))` over the lines of the
input file. -/
def read_loop (lexical_cast : List Char → Option Nat) (BAD_HED : Nat) (BAD0 : List Char) :
    DriverState → List (List Char) → Except Fault DriverState
  | st, [] => .ok st
  | st, line :: rest =>
      match read_line lexical_cast BAD_HED BAD0 st line with
      | .error e => .error e
      | .ok st2 => read_loop lexical_cast BAD_HED BAD0 st2 rest

/-- The invariant of the read loop: `heads` and `deprels` have one entry more than
`tokens`, and their entries at index `0` are the sentinels. -/
def SentinelInv (BAD_HED : Nat) (BAD0 : List Char) (st : DriverState) : Prop :=
  st.heads.length = st.tokens.length + 1 ∧ st.deprels.length = st.tokens.length + 1 ∧
  st.heads[0]? = some BAD_HED ∧ st.deprels[0]? = some BAD0

/-- The first kind of trimmed line: the empty line. -/
def is_blank (buffer : List Char) : Prop := buffer = []

/-- The second kind of trimmed line: it starts with `#ACTION ` (with the space). -/
def is_action_line (buffer : List Char) : Prop :=
  starts_with buffer ['#', 'A', 'C', 'T', 'I', 'O', 'N', ' '] = true

/-- The third kind of trimmed line: any other line that starts with `#`. -/
def is_comment (buffer : List Char) : Prop :=
  starts_with buffer ['#', 'A', 'C', 'T', 'I', 'O', 'N', ' '] = false ∧
    buffer.head? = some '#'

/-- The fourth kind of trimmed line: every other line. -/
def is_data_line (buffer : List Char) : Prop :=
  buffer ≠ [] ∧ buffer.head? ≠ some '#'

/-! ## Bounded segmentations (the vocabulary of the specification) -/

/-- A list of durations is a segmentation of `[0, n)` into consecutive spans, each of a
length between `1` and `max_seg_len`. -/
def IsSegmentation (max_seg_len n : Nat) (durs : List Nat) : Prop :=
  (∀ d ∈ durs, 1 ≤ d ∧ d ≤ max_seg_len) ∧ durs.sum = n

/-- The consecutive spans `(start, end)` with the given durations, the first one starting
at `start`. -/
def spans_from (start : Nat) : List Nat → List (Nat × Nat)
  | [] => []
  | d :: ds => (start, start + d) :: spans_from (start + d) ds

/-- The sum of `factor(start, end)` over the consecutive spans with the given durations. -/
def seg_score {α : Type} [Add α] [Zero α] (factor : Nat → Nat → α) (start : Nat) :
    List Nat → α
  | [] => 0
  | d :: ds => factor start (start + d) + seg_score factor (start + d) ds

/-- Every span of the segmentation is the one recorded in `it` at its end position: the
segmentation is the one found by following `it` back from its last end. -/
def FollowsIt (it : List (Nat × Nat)) (durs : List Nat) : Prop :=
  ∀ s ∈ spans_from 0 durs, it[s.2]? = some s

/-- The tokens of a list of spans, in order: the concatenated units of every span that is
not made of space units only. -/
def tokens_of (space_cid : Nat) (cids : List Nat) (chars : List String)
    (spans : List (Nat × Nat)) : List String :=
  (spans.filter (fun s => !all_space space_cid cids s.1 s.2)).map
    (fun s => concat_units (span_of chars s.1 s.2))

/-- The chart cell `alpha[i]`, with `alpha[0]` read as `0`. -/
def alpha_at {α : Type} [Zero α] (unset : α) (alpha : List α) (i : Nat) : α :=
  if i = 0 then 0 else alpha.getD i unset

/-- The local reading of a filled chart of `decode`: every cell `j` in `1 .. k` has a
recorded start `i` inside the window of `j`, holds `factor(i, j) + alpha[i]`, and no start
of the window gives more. -/
def ArgmaxChart {α : Type} [Add α] [Zero α] [LE α] (factor : Nat → Nat → α) (unset : α)
    (max_seg_len k : Nat) (alpha : List α) (it : List (Nat × Nat)) : Prop :=
  alpha.length = k + 1 ∧ it.length = k + 1 ∧
  ∀ j, 1 ≤ j → j ≤ k → ∃ i, i < j ∧ j - i ≤ max_seg_len ∧ it[j]? = some (i, j) ∧
    alpha[j]? = some (factor i j + alpha_at unset alpha i) ∧
    ∀ i2, i2 < j → j - i2 ≤ max_seg_len →
      factor i2 j + alpha_at unset alpha i2 ≤ factor i j + alpha_at unset alpha i

/-- The cell `ref_alpha[i]`, with `ref_alpha[0]` read as `0`; `none` is a cell never
assigned. -/
def ref_at {α : Type} [Zero α] (ref_alpha : List (Option α)) (i : Nat) : Option α :=
  if i = 0 then some 0 else ref_alpha.getD i none

/-- The marked spans of a table `is_ref` form chains from position `0`: a marked span
`(i, j)` with `i < j` is no longer than `max_seg_len`, starts at `0` or at the end of
another marked span, and is the only marked span ending at `j`. -/
def RefChain (max_seg_len : Nat) (is_ref : Nat → Nat → Bool) : Prop :=
  ∀ i j, i < j → is_ref i j = true →
    j - i ≤ max_seg_len ∧ (i = 0 ∨ ∃ i0, i0 < i ∧ is_ref i0 i = true) ∧
    ∀ i2, i2 < j → is_ref i2 j = true → i2 = i

/-- The start positions visited by the inner loop of the chart of `objective` for the end
position `j`. -/
def objective_window (max_seg_len j : Nat) : List Nat :=
  List.range' (objective_i_start max_seg_len j) (j - objective_i_start max_seg_len j)

/-- The local reading of a filled chart of `objective`: for every cell `j` in `1 .. k`,
`alpha[j]` is `logsumexp` of the candidates `factor(i, j) + alpha[i]` of the window, and
`ref_alpha[j]` is `factor(i, j) + ref_alpha[i]` when a span `(i, j)` is marked in `is_ref`
and is never assigned when none is. -/
def RefChart {α : Type} [Add α] [Zero α] (logsumexp : List α → α) (factor : Nat → Nat → α)
    (is_ref : Nat → Nat → Bool) (unset : α) (max_seg_len k : Nat)
    (alpha : List α) (ref_alpha : List (Option α)) : Prop :=
  alpha.length = k + 1 ∧ ref_alpha.length = k + 1 ∧
  ∀ j, 1 ≤ j → j ≤ k →
    alpha[j]? = some (logsumexp ((objective_window max_seg_len j).map
      (fun i => factor i j + alpha_at unset alpha i))) ∧
    (∀ i, i < j → is_ref i j = true →
      ∃ r, ref_at ref_alpha i = some r ∧ ref_alpha[j]? = some (some (factor i j + r))) ∧
    ((∀ i, i < j → is_ref i j = false) → ref_alpha[j]? = some none)

/-- The function `logsumexp` is the logarithm of the sum of the exponentials. -/
def IsLogSumExp (logsumexp : List ℝ → ℝ) : Prop :=
  ∀ f, logsumexp f = Real.log ((f.map Real.exp).sum)

/-! ## Sentences laid out as space units and whole tokens -/

/-- A piece of a cleaned raw sentence: one space unit, or the units of one whole token
together with the input unit of that token; `raw` lists the ids `char_map.get` gives to
the units of the token in the raw sentence. -/
inductive Piece
  /-- a unit whose id is `space_cid` -/
  | space
  /-- the units of a token, with no space unit between them -/
  | token (unit : InputUnit) (raw : List Nat)

/-- The ids of the units of a piece, as the raw sentence shows them. -/
def Piece.raw_cids (space_cid : Nat) : Piece → List Nat
  | .space => [space_cid]
  | .token _ raw => raw

/-- The ids of the units of a sentence laid out as the given pieces, in order. -/
def layout_cids (space_cid : Nat) : List Piece → List Nat
  | [] => []
  | piece :: rest => piece.raw_cids space_cid ++ layout_cids space_cid rest

/-- The entry a piece is expected to give in `segmentation`: `1` for a space unit and
`cids.size()` for a token. -/
def Piece.duration : Piece → Nat
  | .space => 1
  | .token unit _ => unit.cids.length

/-- The input units of the tokens of a layout, in order. -/
def piece_units : List Piece → List InputUnit
  | [] => []
  | .space :: rest => piece_units rest
  | .token unit _ :: rest => unit :: piece_units rest

/-- A token piece is well formed when the token has at least one character, the raw
sentence shows as many units as the token has characters, and none of them is a space. -/
def Piece.WellFormed (space_cid : Nat) : Piece → Prop
  | .space => True
  | .token unit raw =>
      1 ≤ unit.cids.length ∧ raw.length = unit.cids.length ∧ ∀ cid ∈ raw, cid ≠ space_cid

/-! # Theorems -/

/-! ## Lemmas on segmentations -/

theorem spans_from_append (start : Nat) (ds : List Nat) (d : Nat) :
    spans_from start (ds ++ [d]) =
      spans_from start ds ++ [(start + ds.sum, start + ds.sum + d)] := by
  induction ds generalizing start with
  | nil => simp [spans_from]
  | cons e es ih => simp [spans_from, ih, Nat.add_assoc]

theorem seg_score_append {α : Type} [AddCommMonoid α] (factor : Nat → Nat → α)
    (start : Nat) (ds : List Nat) (d : Nat) :
    seg_score factor start (ds ++ [d]) =
      seg_score factor start ds + factor (start + ds.sum) (start + ds.sum + d) := by
  induction ds generalizing start with
  | nil => simp [seg_score]
  | cons e es ih => simp [seg_score, ih, Nat.add_assoc, add_assoc]

theorem isSegmentation_zero (L : Nat) (durs : List Nat) (h : IsSegmentation L 0 durs) :
    durs = [] := by
  cases durs with
  | nil => rfl
  | cons d ds =>
      have h1 := (h.1 d (List.mem_cons_self _ _)).1
      have h2 := h.2
      simp at h2
      omega

theorem isSegmentation_snoc (L i d : Nat) (ds : List Nat) (h : IsSegmentation L i ds)
    (h1 : 1 ≤ d) (h2 : d ≤ L) : IsSegmentation L (i + d) (ds ++ [d]) := by
  refine ⟨?_, by simp [h.2]⟩
  intro x hx
  rcases List.mem_append.1 hx with hx | hx
  · exact h.1 x hx
  · simp at hx
    subst hx
    exact ⟨h1, h2⟩

theorem isSegmentation_of_snoc (L n d : Nat) (ds : List Nat)
    (h : IsSegmentation L n (ds ++ [d])) :
    1 ≤ d ∧ d ≤ L ∧ d ≤ n ∧ ds.sum = n - d ∧ IsSegmentation L (n - d) ds := by
  have hd := h.1 d (by simp)
  have hs := h.2
  simp at hs
  refine ⟨hd.1, hd.2, by omega, by omega, ?_, by omega⟩
  intro x hx
  exact h.1 x (List.mem_append_left _ hx)

/-! ## The chart of `decode` -/

section DecodeLemmas

variable {α : Type} [LinearOrderedAddCommGroup α]

theorem max_scan_spec (rest pre : List α) (max_id : Nat) (max_val : α)
    (h1 : (pre ++ rest)[max_id]? = some max_val) (h2 : ∀ x ∈ pre, x ≤ max_val) :
    ∃ v, (pre ++ rest)[max_scan rest pre.length max_id max_val]? = some v ∧
      ∀ x ∈ pre ++ rest, x ≤ v := by
  induction rest generalizing pre max_id max_val with
  | nil =>
      refine ⟨max_val, by simpa [max_scan] using h1, ?_⟩
      simpa using h2
  | cons val rest ih =>
      have e : pre ++ val :: rest = (pre ++ [val]) ++ rest := by simp
      have hl : (pre ++ [val]).length = pre.length + 1 := by simp
      unfold max_scan
      split_ifs with hlt
      · have := ih (pre ++ [val]) pre.length val (by
          rw [List.getElem?_append_left (by simp)]; simp) (by
          intro x hx
          rcases List.mem_append.1 hx with hx | hx
          · exact le_of_lt (lt_of_le_of_lt (h2 x hx) hlt)
          · simp at hx; simp [hx])
        rw [hl, ← e] at this
        exact this
      · have := ih (pre ++ [val]) max_id max_val (by rw [← e]; exact h1) (by
          intro x hx
          rcases List.mem_append.1 hx with hx | hx
          · exact h2 x hx
          · simp at hx; subst hx; exact not_lt.1 hlt)
        rw [hl, ← e] at this
        exact this

/-- The value candidate of the start position `i` for the end position `j`. -/
theorem decode_step_spec (factor : Nat → Nat → α) (unset : α) (L j : Nat)
    (alpha : List α) (it : List (Nat × Nat)) (hL : 1 ≤ L) (hj : 1 ≤ j) :
    ∃ i, i < j ∧ j - i ≤ L ∧
      decode_step factor unset L j (alpha, it) =
        .ok (alpha ++ [if i = 0 then factor i j else factor i j + alpha.getD i unset],
             it ++ [(i, j)]) ∧
      ∀ i2, i2 < j → j - i2 ≤ L →
        (if i2 = 0 then factor i2 j else factor i2 j + alpha.getD i2 unset) ≤
          (if i = 0 then factor i j else factor i j + alpha.getD i unset) := by
  have hlt : decode_i_start L j < j := by unfold decode_i_start; split_ifs <;> omega
  have hge : ∀ i2, i2 < j → j - i2 ≤ L → decode_i_start L j ≤ i2 := by
    intro i2 _ _; unfold decode_i_start; split_ifs <;> omega
  have hle : j - decode_i_start L j ≤ L := by unfold decode_i_start; split_ifs <;> omega
  obtain ⟨i0, w, hw⟩ : ∃ i0 w,
      List.range' (decode_i_start L j) (j - decode_i_start L j) = i0 :: w := by
    cases h : List.range' (decode_i_start L j) (j - decode_i_start L j) with
    | nil => simp at h; omega
    | cons a b => exact ⟨a, b, rfl⟩
  have hmem : ∀ i, i ∈ i0 :: w ↔ decode_i_start L j ≤ i ∧ i < j := by
    intro i; rw [← hw, List.mem_range'_1]; omega
  let g : Nat → α := fun i => if i = 0 then factor i j else factor i j + alpha.getD i unset
  obtain ⟨v, hv, hmax⟩ := max_scan_spec (w.map g) [g i0] 0 (g i0) (by simp) (by simp)
  have hv2 : ((i0 :: w).map g)[max_scan (w.map g) 1 0 (g i0)]? = some v := by
    simpa using hv
  rw [List.getElem?_map] at hv2
  obtain ⟨i, hi, hgi⟩ := Option.map_eq_some'.1 hv2
  have hiw := (hmem i).1 (List.getElem?_mem hi)
  refine ⟨i, hiw.2, by omega, ?_, ?_⟩
  · have h3 : ((i0 :: w).map (fun i => (i, j)))[max_scan (w.map g) 1 0 (g i0)]? =
        some (i, j) := by
      rw [List.getElem?_map, hi]; rfl
    have h4 : (g i0 :: w.map g)[max_scan (w.map g) 1 0 (g i0)]? = some (g i) := by
      rw [hgi]; simpa using hv
    simp only [decode_step, decode_candidates, hw, List.map_cons]
    simp only [List.map_cons] at h3
    rw [h4, h3]
  · intro i2 h1 h2
    have : g i2 ∈ [g i0] ++ w.map g := by
      have := (hmem i2).2 ⟨hge i2 h1 h2, h1⟩
      have := List.mem_map_of_mem g this
      simpa using this
    have := hmax _ this
    rw [← hgi] at this
    exact this

theorem candidate_eq (factor : Nat → Nat → α) (unset : α) (alpha : List α) (i j : Nat) :
    (if i = 0 then factor i j else factor i j + alpha.getD i unset) =
      factor i j + alpha_at unset alpha i := by
  unfold alpha_at
  split_ifs <;> simp

theorem alpha_at_append' {β : Type} [Zero β] (unset : β) (alpha : List β) (a : β) (i : Nat)
    (h : i < alpha.length) : alpha_at unset (alpha ++ [a]) i = alpha_at unset alpha i := by
  unfold alpha_at
  rw [List.getD_append _ _ _ _ h]

theorem alpha_at_append (unset : α) (alpha : List α) (a : α) (i : Nat)
    (h : i < alpha.length) : alpha_at unset (alpha ++ [a]) i = alpha_at unset alpha i :=
  alpha_at_append' unset alpha a i h

theorem decode_chart_argmax (factor : Nat → Nat → α) (unset : α) (L : Nat) (hL : 1 ≤ L)
    (k : Nat) :
    ∃ alpha it, decode_chart factor unset L k = .ok (alpha, it) ∧
      ArgmaxChart factor unset L k alpha it := by
  induction k with
  | zero =>
      refine ⟨[unset], [(0, 0)], rfl, rfl, rfl, ?_⟩
      intro j h1 h2; omega
  | succ k ih =>
      obtain ⟨alpha, it, hc, hla, hli, hcells⟩ := ih
      obtain ⟨i, hi1, hi2, hstep, hmax⟩ :=
        decode_step_spec factor unset L (k + 1) alpha it hL (by omega)
      simp only [candidate_eq] at hstep hmax
      refine ⟨_, _, by simp only [decode_chart, hc]; exact hstep, by simp [hla],
        by simp [hli], ?_⟩
      intro j h1 h2
      by_cases hj : j ≤ k
      · obtain ⟨i1, a1, a2, a3, a4, a5⟩ := hcells j h1 hj
        refine ⟨i1, a1, a2, ?_, ?_, ?_⟩
        · rw [List.getElem?_append_left (by omega)]; exact a3
        · rw [List.getElem?_append_left (by omega), alpha_at_append _ _ _ _ (by omega)]
          exact a4
        · intro i2 b1 b2
          rw [alpha_at_append _ _ _ _ (by omega), alpha_at_append _ _ _ _ (by omega)]
          exact a5 i2 b1 b2
      · have hj2 : j = k + 1 := by omega
        subst hj2
        refine ⟨i, hi1, hi2, ?_, ?_, ?_⟩
        · rw [← hli]; exact List.getElem?_concat_length _ _
        · rw [alpha_at_append _ _ _ _ (by omega)]
          rw [List.getElem?_append_right (by omega), hla]
          simp
        · intro i2 b1 b2
          rw [alpha_at_append _ _ _ _ (by omega), alpha_at_append _ _ _ _ (by omega)]
          exact hmax i2 b1 b2

theorem followsIt_snoc (it : List (Nat × Nat)) (ds : List Nat) (i j : Nat)
    (h : FollowsIt it ds) (hs : ds.sum = i) (hij : i ≤ j) (hit : it[j]? = some (i, j)) :
    FollowsIt it (ds ++ [j - i]) := by
  intro s hs2
  rw [spans_from_append] at hs2
  rcases List.mem_append.1 hs2 with h1 | h1
  · exact h s h1
  · simp at h1
    have e : ds.sum + (j - i) = j := by omega
    rw [e, hs] at h1
    subst h1
    exact hit

theorem argmaxChart_best (factor : Nat → Nat → α) (unset : α) (L k : Nat) (alpha : List α)
    (it : List (Nat × Nat)) (h : ArgmaxChart factor unset L k alpha it) (j : Nat)
    (hj : j ≤ k) :
    (∃ durs, IsSegmentation L j durs ∧ FollowsIt it durs ∧
        seg_score factor 0 durs = alpha_at unset alpha j) ∧
      ∀ durs, IsSegmentation L j durs → seg_score factor 0 durs ≤ alpha_at unset alpha j := by
  induction j using Nat.strong_induction_on with
  | _ j ih =>
    rcases Nat.eq_zero_or_pos j with h0 | hpos
    · subst h0
      refine ⟨⟨[], ⟨by simp, rfl⟩, by intro s hs; simp [spans_from] at hs, by
        simp [seg_score, alpha_at]⟩, ?_⟩
      intro durs hd
      rw [isSegmentation_zero L durs hd]
      simp [seg_score, alpha_at]
    · obtain ⟨i, a1, a2, a3, a4, a5⟩ := h.2.2 j hpos hj
      have haj : alpha_at unset alpha j = factor i j + alpha_at unset alpha i := by
        unfold alpha_at
        rw [if_neg (by omega), List.getD_eq_getElem?_getD, a4]
        rfl
      constructor
      · obtain ⟨ds, d1, d2, d3⟩ := (ih i a1 (by omega)).1
        refine ⟨ds ++ [j - i], ?_, followsIt_snoc it ds i j d2 d1.2 (by omega) a3, ?_⟩
        · have := isSegmentation_snoc L i (j - i) ds d1 (by omega) a2
          rwa [show i + (j - i) = j by omega] at this
        · rw [seg_score_append, d3, haj, d1.2, Nat.zero_add,
            show i + (j - i) = j by omega, add_comm]
      · intro durs hd
        rcases List.eq_nil_or_concat durs with hnil | ⟨ds, d, hcat⟩
        · subst hnil
          have := hd.2
          simp at this
          omega
        · rw [List.concat_eq_append] at hcat
          subst hcat
          obtain ⟨e1, e2, e3, e4, e5⟩ := isSegmentation_of_snoc L j d ds hd
          have hb := (ih (j - d) (by omega) (by omega)).2 ds e5
          have hw := a5 (j - d) (by omega) (by omega)
          rw [seg_score_append, e4, Nat.zero_add, show j - d + d = j by omega, haj]
          calc seg_score factor 0 ds + factor (j - d) j
              ≤ alpha_at unset alpha (j - d) + factor (j - d) j := add_le_add_right hb _
            _ = factor (j - d) j + alpha_at unset alpha (j - d) := add_comm _ _
            _ ≤ factor i j + alpha_at unset alpha i := hw

end DecodeLemmas

/-! ## The backtrace of `decode` -/

theorem followsIt_of_snoc (it : List (Nat × Nat)) (ds : List Nat) (d : Nat)
    (h : FollowsIt it (ds ++ [d])) :
    FollowsIt it ds ∧ it[ds.sum + d]? = some (ds.sum, ds.sum + d) := by
  constructor
  · intro s hs
    apply h
    rw [spans_from_append]
    exact List.mem_append_left _ hs
  · have := h (ds.sum, ds.sum + d) (by rw [spans_from_append]; simp)
    simpa using this

theorem followsIt_unique (it : List (Nat × Nat)) (n : Nat) (durs1 durs2 : List Nat)
    (s1 : durs1.sum = n) (s2 : durs2.sum = n) (p1 : ∀ d ∈ durs1, 1 ≤ d)
    (p2 : ∀ d ∈ durs2, 1 ≤ d) (f1 : FollowsIt it durs1) (f2 : FollowsIt it durs2) :
    durs1 = durs2 := by
  induction n using Nat.strong_induction_on generalizing durs1 durs2 with
  | _ n ih =>
    rcases List.eq_nil_or_concat durs1 with h1 | ⟨a, d1, h1⟩
    · subst h1
      simp at s1
      subst s1
      cases durs2 with
      | nil => rfl
      | cons d ds =>
          have := p2 d (List.mem_cons_self _ _)
          simp at s2
          omega
    · rw [List.concat_eq_append] at h1
      subst h1
      have hd1 := p1 d1 (by simp)
      simp at s1
      rcases List.eq_nil_or_concat durs2 with h2 | ⟨b, d2, h2⟩
      · subst h2
        simp at s2
        omega
      · rw [List.concat_eq_append] at h2
        subst h2
        have hd2 := p2 d2 (by simp)
        simp at s2
        obtain ⟨fa, ha⟩ := followsIt_of_snoc it a d1 f1
        obtain ⟨fb, hb⟩ := followsIt_of_snoc it b d2 f2
        rw [s1] at ha
        rw [s2, ha] at hb
        have hab : a.sum = b.sum := by
          have := Option.some.inj hb
          exact congrArg Prod.fst this
        have := ih a.sum (by omega) a b rfl hab.symm
          (fun d hd => p1 d (List.mem_append_left _ hd))
          (fun d hd => p2 d (List.mem_append_left _ hd)) fa fb
        subst this
        have : d1 = d2 := by omega
        subst this
        rfl

theorem tokens_of_append (space_cid : Nat) (cids : List Nat) (chars : List String)
    (spans : List (Nat × Nat)) (s : Nat × Nat) :
    tokens_of space_cid cids chars (spans ++ [s]) =
      tokens_of space_cid cids chars spans ++
        (if all_space space_cid cids s.1 s.2 then []
         else [concat_units (span_of chars s.1 s.2)]) := by
  unfold tokens_of
  rw [List.filter_append, List.map_append]
  congr 1
  by_cases h : all_space space_cid cids s.1 s.2 <;> simp [List.filter, h]

theorem backtrace_follows (space_cid : Nat) (cids : List Nat) (chars : List String)
    (it : List (Nat × Nat)) (durs : List Nat) (hpos : ∀ d ∈ durs, 1 ≤ d)
    (hf : FollowsIt it durs) (fuel : Nat) (hfuel : durs.sum ≤ fuel) (output : List String) :
    backtrace space_cid cids chars it fuel durs.sum output =
      .ok (output ++ (tokens_of space_cid cids chars (spans_from 0 durs)).reverse) := by
  induction durs using List.reverseRecOn generalizing fuel output with
  | nil =>
      cases fuel <;> simp [backtrace, spans_from, tokens_of]
  | append_singleton ds d ih =>
      have hd := hpos d (by simp)
      obtain ⟨fds, hit⟩ := followsIt_of_snoc it ds d hf
      have hsum : (ds ++ [d]).sum = (ds.sum + d - 1) + 1 := by simp; omega
      obtain ⟨f, rfl⟩ : ∃ f, fuel = f + 1 := ⟨fuel - 1, by simp at hfuel; omega⟩
      have hit2 : it[ds.sum + d - 1 + 1]? = some (ds.sum, ds.sum + d) := by
        rw [show ds.sum + d - 1 + 1 = ds.sum + d by omega]; exact hit
      rw [hsum, backtrace, hit2]
      simp only
      rw [ih (fun x hx => hpos x (List.mem_append_left _ hx)) fds f (by simp at hfuel; omega),
        spans_from_append, tokens_of_append]
      simp only [Nat.zero_add, show ds.sum + d - 1 + 1 = ds.sum + d by omega]
      by_cases h : all_space space_cid cids ds.sum (ds.sum + d) <;> simp [h]

/-- C1 (amended): with `n_chars >= 1` and `max_seg_len >= 1` the chart loop of `decode` ends
without a failed assertion, and for every score function `factor` with values in a linearly
ordered additive commutative group (the sums of line 116 are exact) each cell `alpha[j]`,
`1 <= j <= n_chars`, is the greatest score of a segmentation of `[0, j)` into consecutive
spans of lengths `1 .. max_seg_len` (it is the score of one such segmentation and no such
segmentation scores more); following the start positions recorded in `it` back from
`n_chars` gives one segmentation, and its score is `alpha[n_chars]`. -/
theorem decode_chart_viterbi {α : Type} [LinearOrderedAddCommGroup α]
    (factor : Nat → Nat → α) (unset : α) (max_seg_len n_chars : Nat)
    (hn : 1 ≤ n_chars) (hL : 1 ≤ max_seg_len) :
    ∃ alpha it, decode_chart factor unset max_seg_len n_chars = .ok (alpha, it) ∧
      (∀ j, 1 ≤ j → j ≤ n_chars → ∃ a, alpha[j]? = some a ∧
        (∃ durs, IsSegmentation max_seg_len j durs ∧ seg_score factor 0 durs = a) ∧
        ∀ durs, IsSegmentation max_seg_len j durs → seg_score factor 0 durs ≤ a) ∧
      ∃ a, alpha[n_chars]? = some a ∧
        (∃ durs, IsSegmentation max_seg_len n_chars durs ∧ FollowsIt it durs) ∧
        ∀ durs, durs.sum = n_chars → (∀ d ∈ durs, 1 ≤ d) → FollowsIt it durs →
          seg_score factor 0 durs = a := by
  obtain ⟨alpha, it, hc, hinv⟩ := decode_chart_argmax factor unset max_seg_len hL n_chars
  have hcell : ∀ j, 1 ≤ j → j ≤ n_chars → alpha[j]? = some (alpha_at unset alpha j) := by
    intro j h1 h2
    obtain ⟨i, _, _, _, a4, _⟩ := hinv.2.2 j h1 h2
    unfold alpha_at
    rw [if_neg (by omega), List.getD_eq_getElem?_getD, a4]
    rfl
  refine ⟨alpha, it, hc, ?_, ?_⟩
  · intro j h1 h2
    obtain ⟨⟨durs, d1, _, d3⟩, hub⟩ := argmaxChart_best factor unset max_seg_len n_chars
      alpha it hinv j h2
    exact ⟨_, hcell j h1 h2, ⟨durs, d1, d3⟩, hub⟩
  · obtain ⟨⟨durs, d1, d2, d3⟩, _⟩ := argmaxChart_best factor unset max_seg_len n_chars
      alpha it hinv n_chars (le_refl _)
    refine ⟨_, hcell n_chars hn (le_refl _), ⟨durs, d1, d2⟩, ?_⟩
    intro durs2 e1 e2 e3
    rw [followsIt_unique it n_chars durs2 durs e1 d1.2 e2 (fun d hd => (d1.1 d hd).1) e3 d2]
    exact d3

/-- Witness of C1: integer scores on three units with the default window of 25. -/
theorem decode_chart_viterbi_witness :
    (1 ≤ 3 ∧ 1 ≤ 25) ∧
    ∃ alpha it, decode_chart (fun i j => ((i : Int) - 2 * j)) 0 25 3 = .ok (alpha, it) ∧
      (∀ j, 1 ≤ j → j ≤ 3 → ∃ a, alpha[j]? = some a ∧
        (∃ durs, IsSegmentation 25 j durs ∧
          seg_score (fun i j => ((i : Int) - 2 * j)) 0 durs = a) ∧
        ∀ durs, IsSegmentation 25 j durs →
          seg_score (fun i j => ((i : Int) - 2 * j)) 0 durs ≤ a) ∧
      ∃ a, alpha[3]? = some a ∧
        (∃ durs, IsSegmentation 25 3 durs ∧ FollowsIt it durs) ∧
        ∀ durs, durs.sum = 3 → (∀ d ∈ durs, 1 ≤ d) → FollowsIt it durs →
          seg_score (fun i j => ((i : Int) - 2 * j)) 0 durs = a :=
  ⟨by decide, decode_chart_viterbi (fun i j => ((i : Int) - 2 * j)) 0 25 3 (by decide)
    (by decide)⟩

theorem isSegmentation_one (L : Nat) (durs : List Nat) (h : IsSegmentation L 1 durs) :
    durs = [1] := by
  cases durs with
  | nil => have := h.2; simp at this
  | cons d ds =>
      have h1 := (h.1 d (List.mem_cons_self _ _)).1
      have h2 := h.2
      simp at h2
      have h3 : ds = [] := isSegmentation_zero L ds
        ⟨fun x hx => h.1 x (List.mem_cons_of_mem _ hx), by omega⟩
      subst h3
      simp at h2
      rw [h2]

theorem mark_refs_spans (n L : Nat) (durs : List Nat) (cur : Nat)
    (is_ref0 is_ref : Nat → Nat → Bool)
    (h : mark_refs n L durs cur is_ref0 = .ok (some is_ref)) :
    ((∀ d ∈ durs, d ≤ L) ∧ cur + durs.sum ≤ n ∨ durs = []) ∧
    ∀ i j, is_ref i j = true ↔ (is_ref0 i j = true ∨ (i, j) ∈ spans_from cur durs) := by
  induction durs generalizing cur is_ref0 with
  | nil =>
      simp only [mark_refs, Except.ok.injEq, Option.some.injEq] at h
      subst h
      simp [spans_from]
  | cons d ds ih =>
      unfold mark_refs at h
      by_cases h1 : cur < n
      swap
      · simp [h1] at h
      by_cases h2 : d > L
      · simp [h1, h2] at h
      by_cases h3 : cur + d ≤ n
      swap
      · simp [h1, h2, h3] at h
      rw [if_neg (not_not.2 h1), if_neg h2, if_neg (not_not.2 h3)] at h
      obtain ⟨hb, hm⟩ := ih _ _ h
      constructor
      · left
        rcases hb with ⟨hb1, hb2⟩ | hb
        · refine ⟨?_, by simp; omega⟩
          intro x hx
          rcases List.mem_cons.1 hx with rfl | hx
          · omega
          · exact hb1 x hx
        · subst hb
          refine ⟨by intro x hx; simp at hx; omega, by simp; omega⟩
      · intro i j
        rw [hm i j]
        simp only [spans_from, List.mem_cons, Prod.mk.injEq]
        by_cases hc : i = cur ∧ j = cur + d
        · simp [hc]
        · simp only [hc, if_false]
          tauto

theorem mark_refs_ok (n L : Nat) (durs : List Nat) (cur : Nat) (is_ref0 : Nat → Nat → Bool)
    (hd : ∀ d ∈ durs, 1 ≤ d ∧ d ≤ L) (hs : cur + durs.sum ≤ n) :
    ∃ is_ref, mark_refs n L durs cur is_ref0 = .ok (some is_ref) := by
  induction durs generalizing cur is_ref0 with
  | nil => exact ⟨is_ref0, rfl⟩
  | cons d ds ih =>
      have h1 := hd d (List.mem_cons_self _ _)
      simp at hs
      unfold mark_refs
      rw [if_neg (by omega), if_neg (by omega), if_neg (by omega)]
      exact ih _ _ (fun x hx => hd x (List.mem_cons_of_mem _ hx)) (by omega)

theorem mark_refs_overlong (n L : Nat) (durs : List Nat) (cur : Nat)
    (is_ref0 : Nat → Nat → Bool) (hd : ∀ d ∈ durs, 1 ≤ d) (hs : cur + durs.sum ≤ n)
    (hlong : ∃ d ∈ durs, L < d) :
    mark_refs n L durs cur is_ref0 = .ok none := by
  induction durs generalizing cur is_ref0 with
  | nil => simp at hlong
  | cons d ds ih =>
      have h1 := hd d (List.mem_cons_self _ _)
      simp at hs
      unfold mark_refs
      rw [if_neg (by omega)]
      by_cases h2 : d > L
      · rw [if_pos h2]
      · rw [if_neg h2, if_neg (by omega)]
        apply ih _ _ (fun x hx => hd x (List.mem_cons_of_mem _ hx)) (by omega)
        obtain ⟨x, hx, hx2⟩ := hlong
        rcases List.mem_cons.1 hx with rfl | hx
        · omega
        · exact ⟨x, hx, hx2⟩

theorem mark_refs_chain (n L : Nat) (durs : List Nat) (cur : Nat)
    (is_ref0 is_ref : Nat → Nat → Bool)
    (h : mark_refs n L durs cur is_ref0 = .ok (some is_ref))
    (hc : RefChain L is_ref0) (hend : ∀ i j, i < j → is_ref0 i j = true → j ≤ cur)
    (hcur : cur = 0 ∨ ∃ i0, i0 < cur ∧ is_ref0 i0 cur = true) : RefChain L is_ref := by
  induction durs generalizing cur is_ref0 with
  | nil =>
      simp only [mark_refs, Except.ok.injEq, Option.some.injEq] at h
      subst h
      exact hc
  | cons d ds ih =>
      unfold mark_refs at h
      by_cases h1 : cur < n
      swap
      · simp [h1] at h
      by_cases h2 : d > L
      · simp [h1, h2] at h
      by_cases h3 : cur + d ≤ n
      swap
      · simp [h1, h2, h3] at h
      rw [if_neg (not_not.2 h1), if_neg h2, if_neg (not_not.2 h3)] at h
      have hmono : ∀ i j, is_ref0 i j = true →
          (if i = cur ∧ j = cur + d then true else is_ref0 i j) = true := by
        intro i j hij
        split_ifs
        · rfl
        · exact hij
      have hcases : ∀ i j, (if i = cur ∧ j = cur + d then true else is_ref0 i j) = true →
          (i = cur ∧ j = cur + d) ∨ is_ref0 i j = true := by
        intro i j hij
        by_cases hc2 : i = cur ∧ j = cur + d
        · exact Or.inl hc2
        · rw [if_neg hc2] at hij
          exact Or.inr hij
      apply ih _ _ h
      · intro i j hij ht
        rcases hcases i j ht with ⟨e1, e2⟩ | h0
        · refine ⟨by omega, ?_, ?_⟩
          · rcases hcur with hz | ⟨i0, hi0, hr0⟩
            · exact Or.inl (by omega)
            · exact Or.inr ⟨i0, by omega, hmono _ _ (by rw [e1]; exact hr0)⟩
          · intro i2 hi2 ht2
            rcases hcases i2 j ht2 with ⟨f1, _⟩ | g0
            · omega
            · have := hend i2 j hi2 g0
              omega
        · obtain ⟨c1, c2, c3⟩ := hc i j hij h0
          refine ⟨c1, ?_, ?_⟩
          · rcases c2 with hz | ⟨i0, hi0, hr0⟩
            · exact Or.inl hz
            · exact Or.inr ⟨i0, hi0, hmono _ _ hr0⟩
          · intro i2 hi2 ht2
            rcases hcases i2 j ht2 with ⟨f1, f2⟩ | g0
            · have := hend i j hij h0
              omega
            · exact c3 i2 hi2 g0
      · intro i j hij ht
        rcases hcases i j ht with ⟨_, e2⟩ | h0
        · omega
        · have := hend i j hij h0
          omega
      · rcases Nat.eq_zero_or_pos d with hd0 | hdpos
        · subst hd0
          rcases hcur with hz | ⟨i0, hi0, hr0⟩
          · exact Or.inl (by omega)
          · exact Or.inr ⟨i0, by omega, hmono _ _ hr0⟩
        · exact Or.inr ⟨cur, by omega, by simp⟩

theorem mark_refs_chain_init (n L : Nat) (durs : List Nat) (is_ref : Nat → Nat → Bool)
    (h : mark_refs n L durs 0 (fun _ _ => false) = .ok (some is_ref)) :
    RefChain L is_ref :=
  mark_refs_chain n L durs 0 _ is_ref h (by intro i j _ hf; simp at hf)
    (by intro i j _ hf; simp at hf) (Or.inl rfl)

/-! ## The chart of `objective` -/

section ObjectiveLemmas

variable {α : Type} [AddCommGroup α]

theorem objective_inner_spec (factor : Nat → Nat → α) (is_ref : Nat → Nat → Bool)
    (unset : α) (alpha : List α) (ref_alpha : List (Option α)) (j : Nat) (v0 : α)
    (is : List Nat) (f0 : List α) (rj0 : Option α)
    (h : ∀ i ∈ is, is_ref i j = true →
      ∃ r, ref_at ref_alpha i = some r ∧ v0 = factor i j + r) :
    objective_inner factor is_ref unset alpha ref_alpha j is f0 rj0 =
      .ok (f0 ++ is.map (fun i => factor i j + alpha_at unset alpha i),
           if is.any (fun i => is_ref i j) then some v0 else rj0) := by
  induction is generalizing f0 rj0 with
  | nil => simp [objective_inner]
  | cons i rest ih =>
      have ih2 := fun f0 rj0 => ih f0 rj0 (fun x hx => h x (List.mem_cons_of_mem _ hx))
      unfold objective_inner
      by_cases hi0 : i = 0
      · subst hi0
        rw [if_pos rfl, ih2]
        by_cases hr : is_ref 0 j = true
        · obtain ⟨r, hr1, hr2⟩ := h 0 (List.mem_cons_self _ _) hr
          simp only [ref_at, if_true, Option.some.injEq] at hr1
          subst hr1
          simp [hr, alpha_at, hr2]
        · simp [hr, alpha_at]
      · rw [if_neg hi0]
        by_cases hr : is_ref i j = true
        · obtain ⟨r, hr1, hr2⟩ := h i (List.mem_cons_self _ _) hr
          simp only [ref_at, hi0, if_false] at hr1
          rw [if_pos hr, hr1]
          simp only
          rw [ih2]
          simp [hr, alpha_at, hi0, hr2]
        · rw [if_neg hr, ih2]
          simp [hr, alpha_at, hi0]

theorem ref_at_append (ref_alpha : List (Option α)) (a : Option α) (i : Nat)
    (h : i < ref_alpha.length) : ref_at (ref_alpha ++ [a]) i = ref_at ref_alpha i := by
  unfold ref_at
  rw [List.getD_append _ _ _ _ h]

theorem mem_objective_window (L j i : Nat) :
    i ∈ objective_window L j ↔ objective_i_start L j ≤ i ∧ i < j := by
  unfold objective_window
  rw [List.mem_range'_1]
  have : objective_i_start L j ≤ j := by
    unfold objective_i_start; split_ifs <;> omega
  omega

theorem objective_window_of_le (L j i : Nat) (h1 : i < j) (h2 : j - i ≤ L) :
    i ∈ objective_window L j := by
  rw [mem_objective_window]
  refine ⟨?_, h1⟩
  unfold objective_i_start
  split_ifs <;> omega

theorem objective_window_map_append (factor : Nat → Nat → α) (unset : α) (alpha : List α)
    (a : α) (L j : Nat) (hj : j ≤ alpha.length) :
    (objective_window L j).map (fun i => factor i j + alpha_at unset (alpha ++ [a]) i) =
      (objective_window L j).map (fun i => factor i j + alpha_at unset alpha i) := by
  apply List.map_congr_left
  intro i hi
  rw [alpha_at_append' unset alpha a i (by have := (mem_objective_window L j i).1 hi; omega)]

theorem refChart_ref_at (logsumexp : List α → α) (factor : Nat → Nat → α)
    (is_ref : Nat → Nat → Bool) (unset : α) (L k : Nat) (alpha : List α)
    (ref_alpha : List (Option α)) (hc : RefChain L is_ref)
    (h : RefChart logsumexp factor is_ref unset L k alpha ref_alpha)
    (i j : Nat) (hij : i < j) (hi : i ≤ k) (hr : is_ref i j = true) :
    ∃ r, ref_at ref_alpha i = some r := by
  rcases (hc i j hij hr).2.1 with hz | ⟨i0, hi0, hr0⟩
  · exact ⟨0, by simp [ref_at, hz]⟩
  · obtain ⟨r, _, hr2⟩ := (h.2.2 i (by omega) hi).2.1 i0 hi0 hr0
    refine ⟨factor i0 i + r, ?_⟩
    unfold ref_at
    rw [if_neg (by omega), List.getD_eq_getElem?_getD, hr2]
    rfl

theorem objective_chart_spec (logsumexp : List α → α) (factor : Nat → Nat → α)
    (is_ref : Nat → Nat → Bool) (unset : α) (L : Nat) (hc : RefChain L is_ref) (k : Nat) :
    ∃ alpha ref_alpha,
      objective_chart logsumexp factor is_ref unset L k = .ok (alpha, ref_alpha) ∧
      RefChart logsumexp factor is_ref unset L k alpha ref_alpha := by
  induction k with
  | zero =>
      refine ⟨[unset], [none], rfl, rfl, rfl, ?_⟩
      intro j h1 h2; omega
  | succ k ih =>
      obtain ⟨alpha, ref_alpha, hch, hinv⟩ := ih
      obtain ⟨hla, hlr, hcells⟩ := hinv
      -- the value assigned to `ref_alpha[k + 1]`
      have hinner : ∃ ref_j,
          objective_inner factor is_ref unset alpha ref_alpha (k + 1)
            (objective_window L (k + 1)) [] none =
            .ok ([] ++ (objective_window L (k + 1)).map
              (fun i => factor i (k + 1) + alpha_at unset alpha i), ref_j) ∧
          (∀ i, i < k + 1 → is_ref i (k + 1) = true →
            ∃ r, ref_at ref_alpha i = some r ∧ ref_j = some (factor i (k + 1) + r)) ∧
          ((∀ i, i < k + 1 → is_ref i (k + 1) = false) → ref_j = none) := by
        by_cases hex : ∃ i0, i0 < k + 1 ∧ is_ref i0 (k + 1) = true
        · obtain ⟨i0, hi0, hr0⟩ := hex
          obtain ⟨r0, hr0v⟩ := refChart_ref_at logsumexp factor is_ref unset L k alpha
            ref_alpha hc ⟨hla, hlr, hcells⟩ i0 (k + 1) hi0 (by omega) hr0
          have huniq := (hc i0 (k + 1) hi0 hr0).2.2
          have hmem := objective_window_of_le L (k + 1) i0 hi0 (hc i0 (k + 1) hi0 hr0).1
          have hany : (objective_window L (k + 1)).any (fun i => is_ref i (k + 1)) = true :=
            List.any_eq_true.2 ⟨i0, hmem, hr0⟩
          refine ⟨_, objective_inner_spec factor is_ref unset alpha ref_alpha (k + 1)
            (factor i0 (k + 1) + r0) _ [] none ?_, ?_, ?_⟩
          · intro i hi hr
            have := huniq i ((mem_objective_window L (k + 1) i).1 hi).2 hr
            subst this
            exact ⟨r0, hr0v, rfl⟩
          · intro i hi hr
            have := huniq i hi hr
            subst this
            exact ⟨r0, hr0v, by rw [hany]; rfl⟩
          · intro hall
            rw [hall i0 hi0] at hr0
            exact absurd hr0 (by simp)
        · have hall : ∀ i, i < k + 1 → is_ref i (k + 1) = false := by
            intro i hi
            by_contra hne
            exact hex ⟨i, hi, by simpa using hne⟩
          have hany : (objective_window L (k + 1)).any (fun i => is_ref i (k + 1)) = false := by
            rw [List.any_eq_false]
            intro i hi
            rw [hall i ((mem_objective_window L (k + 1) i).1 hi).2]
            simp
          refine ⟨_, objective_inner_spec factor is_ref unset alpha ref_alpha (k + 1)
            0 _ [] none ?_, ?_, ?_⟩
          · intro i hi hr
            rw [hall i ((mem_objective_window L (k + 1) i).1 hi).2] at hr
            exact absurd hr (by simp)
          · intro i hi hr
            rw [hall i hi] at hr
            exact absurd hr (by simp)
          · intro _
            rw [hany]; rfl
      obtain ⟨ref_j, hin, hmark, hnone⟩ := hinner
      refine ⟨_, _, by
        simp only [objective_chart, hch, objective_step]
        unfold objective_window at hin
        rw [hin], by simp [hla], by simp [hlr], ?_⟩
      intro j h1 h2
      simp only [List.nil_append]
      by_cases hj : j ≤ k
      · obtain ⟨c1, c2, c3⟩ := hcells j h1 hj
        refine ⟨?_, ?_, ?_⟩
        · rw [List.getElem?_append_left (by omega),
            objective_window_map_append factor unset alpha _ L j (by omega)]
          exact c1
        · intro i hi hr
          obtain ⟨r, d1, d2⟩ := c2 i hi hr
          refine ⟨r, by rw [ref_at_append _ _ _ (by omega)]; exact d1, ?_⟩
          rw [List.getElem?_append_left (by omega)]; exact d2
        · intro hall
          rw [List.getElem?_append_left (by omega)]; exact c3 hall
      · have hj2 : j = k + 1 := by omega
        subst hj2
        refine ⟨?_, ?_, ?_⟩
        · rw [List.getElem?_append_right (by omega), hla,
            objective_window_map_append factor unset alpha _ L (k + 1) (by omega)]
          simp
          rfl
        · intro i hi hr
          obtain ⟨r, d1, d2⟩ := hmark i hi hr
          refine ⟨r, by rw [ref_at_append _ _ _ (by omega)]; exact d1, ?_⟩
          rw [List.getElem?_append_right (by omega), hlr, d2]
          simp
        · intro hall
          rw [List.getElem?_append_right (by omega), hlr, hnone hall]
          simp

theorem refChart_gold (logsumexp : List α → α) (factor : Nat → Nat → α)
    (is_ref : Nat → Nat → Bool) (unset : α) (L k : Nat) (alpha : List α)
    (ref_alpha : List (Option α))
    (h : RefChart logsumexp factor is_ref unset L k alpha ref_alpha) (durs : List Nat)
    (hpos : ∀ d ∈ durs, 1 ≤ d) (hsum : durs.sum ≤ k)
    (hm : ∀ s ∈ spans_from 0 durs, is_ref s.1 s.2 = true) :
    ref_at ref_alpha durs.sum = some (seg_score factor 0 durs) := by
  induction durs using List.reverseRecOn with
  | nil => simp [ref_at, seg_score]
  | append_singleton ds d ih =>
      have hd := hpos d (by simp)
      simp only [List.sum_append, List.sum_cons, List.sum_nil, Nat.add_zero] at hsum ⊢
      have ih2 := ih (fun x hx => hpos x (List.mem_append_left _ hx)) (by omega)
        (fun s hs => hm s (by rw [spans_from_append]; exact List.mem_append_left _ hs))
      have hmark := hm (ds.sum, ds.sum + d) (by rw [spans_from_append]; simp)
      obtain ⟨r, hr1, hr2⟩ := (h.2.2 (ds.sum + d) (by omega) hsum).2.1 ds.sum (by omega) hmark
      rw [ih2] at hr1
      have hr : r = seg_score factor 0 ds := (Option.some.inj hr1).symm
      subst hr
      unfold ref_at
      rw [if_neg (by omega), List.getD_eq_getElem?_getD, hr2, seg_score_append]
      simp [add_comm]

end ObjectiveLemmas

/-! ## The log-partition of the bounded segmentations -/

theorem exists_segmentation_finset (L j : Nat) :
    ∃ S : Finset (List Nat), ∀ ds, ds ∈ S ↔ IsSegmentation L j ds := by
  classical
  refine ⟨((Finset.univ : Finset (Composition j)).filter
    (fun c => ∀ d ∈ c.blocks, d ≤ L)).image (fun c => c.blocks), ?_⟩
  intro ds
  simp only [Finset.mem_image, Finset.mem_filter, Finset.mem_univ, true_and]
  constructor
  · rintro ⟨c, hc, rfl⟩
    exact ⟨fun d hd => ⟨c.blocks_pos hd, hc d hd⟩, c.blocks_sum⟩
  · intro h
    exact ⟨⟨ds, fun hi => (h.1 _ hi).1, h.2⟩, fun d hd => (h.1 d hd).2, rfl⟩

theorem sum_segmentations_step (L j : Nat) (hj : 1 ≤ j) (S : Nat → Finset (List Nat))
    (hS : ∀ i ds, ds ∈ S i ↔ IsSegmentation L i ds) (W : Finset Nat)
    (hW : ∀ i, i ∈ W ↔ i < j ∧ j - i ≤ L) (g : List Nat → ℝ) :
    ∑ ds in S j, g ds = ∑ i in W, ∑ ds in S i, g (ds ++ [j - i]) := by
  classical
  have hSj : S j = W.biUnion (fun i => (S i).image (fun ds => ds ++ [j - i])) := by
    ext ds
    simp only [Finset.mem_biUnion, Finset.mem_image]
    constructor
    · intro hds
      have hseg := (hS j ds).1 hds
      rcases List.eq_nil_or_concat ds with hnil | ⟨ds0, d, hcat⟩
      · subst hnil
        have := hseg.2
        simp at this
        omega
      · rw [List.concat_eq_append] at hcat
        subst hcat
        obtain ⟨e1, e2, e3, _, e5⟩ := isSegmentation_of_snoc L j d ds0 hseg
        refine ⟨j - d, (hW _).2 ⟨by omega, by omega⟩, ds0, (hS _ _).2 e5, ?_⟩
        rw [show j - (j - d) = d by omega]
    · rintro ⟨i, hi, ds0, hds0, rfl⟩
      have hi2 := (hW i).1 hi
      have := isSegmentation_snoc L i (j - i) ds0 ((hS _ _).1 hds0) (by omega) hi2.2
      rw [show i + (j - i) = j by omega] at this
      exact (hS _ _).2 this
  rw [hSj, Finset.sum_biUnion]
  · apply Finset.sum_congr rfl
    intro i _
    rw [Finset.sum_image]
    intro a _ b _ hab
    exact List.append_cancel_right hab
  · intro i hi i2 hi2 hne
    have h1 := (hW i).1 hi
    have h2 := (hW i2).1 hi2
    simp only [Function.onFun]
    rw [Finset.disjoint_left]
    intro x hx hx2
    simp only [Finset.mem_image] at hx hx2
    obtain ⟨a, _, rfl⟩ := hx
    obtain ⟨b, _, hb⟩ := hx2
    have := congrArg List.getLast? hb
    simp at this
    exact hne (by omega)

theorem mem_objective_window_iff (L j i : Nat) (hL : 1 ≤ L) :
    i ∈ objective_window L j ↔ i < j ∧ j - i ≤ L := by
  rw [mem_objective_window]
  unfold objective_i_start
  split_ifs <;> omega

theorem refChart_alpha_at (logsumexp : List ℝ → ℝ) (factor : Nat → Nat → ℝ)
    (is_ref : Nat → Nat → Bool) (unset : ℝ) (L k : Nat) (alpha : List ℝ)
    (ref_alpha : List (Option ℝ))
    (h : RefChart logsumexp factor is_ref unset L k alpha ref_alpha) (j : Nat)
    (h1 : 1 ≤ j) (h2 : j ≤ k) :
    alpha_at unset alpha j = logsumexp ((objective_window L j).map
      (fun i => factor i j + alpha_at unset alpha i)) := by
  have := (h.2.2 j h1 h2).1
  unfold alpha_at
  rw [if_neg (by omega), List.getD_eq_getElem?_getD, this]
  rfl

theorem refChart_partition (logsumexp : List ℝ → ℝ) (hlse : IsLogSumExp logsumexp)
    (factor : Nat → Nat → ℝ) (is_ref : Nat → Nat → Bool) (unset : ℝ) (L k : Nat)
    (alpha : List ℝ) (ref_alpha : List (Option ℝ)) (hL : 1 ≤ L)
    (h : RefChart logsumexp factor is_ref unset L k alpha ref_alpha)
    (S : Nat → Finset (List Nat)) (hS : ∀ i ds, ds ∈ S i ↔ IsSegmentation L i ds)
    (j : Nat) (hj : j ≤ k) :
    Real.exp (alpha_at unset alpha j) = ∑ ds in S j, Real.exp (seg_score factor 0 ds) := by
  induction j using Nat.strong_induction_on with
  | _ j ih =>
    rcases Nat.eq_zero_or_pos j with h0 | hpos
    · subst h0
      have hS0 : S 0 = {[]} := by
        ext ds
        rw [hS, Finset.mem_singleton]
        constructor
        · exact isSegmentation_zero L ds
        · rintro rfl
          exact ⟨by simp, rfl⟩
      simp [hS0, alpha_at, seg_score]
    · have hW : ∀ i, i ∈ (objective_window L j).toFinset ↔ i < j ∧ j - i ≤ L := by
        intro i
        rw [List.mem_toFinset, mem_objective_window_iff L j i hL]
      rw [sum_segmentations_step L j hpos S hS _ hW,
        refChart_alpha_at logsumexp factor is_ref unset L k alpha ref_alpha h j hpos hj,
        hlse, List.map_map,
        ← List.sum_toFinset _ (by unfold objective_window; exact List.nodup_range' _ _)]
      rw [Real.exp_log]
      · apply Finset.sum_congr rfl
        intro i hi
        have hi2 := (hW i).1 hi
        simp only [Function.comp_apply]
        rw [Real.exp_add, ih i hi2.1 (by omega), Finset.mul_sum]
        apply Finset.sum_congr rfl
        intro ds hds
        have hsum : ds.sum = i := ((hS i ds).1 hds).2
        rw [seg_score_append, Real.exp_add, hsum, Nat.zero_add,
          show i + (j - i) = j by omega, mul_comm]
      · apply Finset.sum_pos
        · intro i _
          exact Real.exp_pos _
        · exact ⟨j - 1, (hW _).2 ⟨by omega, by omega⟩⟩

/-! ## `objective` on a gold segmentation -/

theorem objective_from_gold {α : Type} [AddCommGroup α] (logsumexp : List α → α)
    (factor : Nat → Nat → α) (unset : α) (L n : Nat) (gold : List Nat)
    (hg : IsSegmentation L n gold) (hn : 1 ≤ n) :
    ∃ is_ref alpha ref_alpha,
      mark_refs n L gold 0 (fun _ _ => false) = .ok (some is_ref) ∧
      (∀ i j, is_ref i j = true ↔ (i, j) ∈ spans_from 0 gold) ∧
      objective_chart logsumexp factor is_ref unset L n = .ok (alpha, ref_alpha) ∧
      RefChart logsumexp factor is_ref unset L n alpha ref_alpha ∧
      alpha[n]? = some (alpha_at unset alpha n) ∧
      ref_alpha[n]? = some (some (seg_score factor 0 gold)) ∧
      objective_from logsumexp factor unset L n gold =
        .ok (.loss (alpha_at unset alpha n - seg_score factor 0 gold)) := by
  obtain ⟨is_ref, hmark⟩ := mark_refs_ok n L gold 0 (fun _ _ => false) hg.1
    (by rw [hg.2]; omega)
  have hiff : ∀ i j, is_ref i j = true ↔ (i, j) ∈ spans_from 0 gold := by
    intro i j
    rw [(mark_refs_spans n L gold 0 _ is_ref hmark).2 i j]
    simp
  obtain ⟨alpha, ref_alpha, hchart, hinv⟩ := objective_chart_spec logsumexp factor is_ref
    unset L (mark_refs_chain_init n L gold is_ref hmark) n
  have hgold := refChart_gold logsumexp factor is_ref unset L n alpha ref_alpha hinv gold
    (fun d hd => (hg.1 d hd).1) (le_of_eq hg.2) (fun s hs => (hiff s.1 s.2).2 hs)
  rw [hg.2] at hgold
  have ha : alpha[n]? = some (alpha_at unset alpha n) := by
    have := (hinv.2.2 n hn (le_refl _)).1
    unfold alpha_at
    rw [if_neg (by omega), List.getD_eq_getElem?_getD, this]
    rfl
  have hr : ref_alpha[n]? = some (some (seg_score factor 0 gold)) := by
    unfold ref_at at hgold
    rw [if_neg (by omega), List.getD_eq_getElem?_getD] at hgold
    have hlt : n < ref_alpha.length := by rw [hinv.2.1]; omega
    rw [List.getElem?_eq_getElem hlt] at hgold ⊢
    simp only [Option.getD_some] at hgold
    rw [hgold]
  refine ⟨is_ref, alpha, ref_alpha, hmark, hiff, hchart, hinv, ha, hr, ?_⟩
  have e1 : alpha.getLast? = alpha[n]? := by
    rw [List.getLast?_eq_getElem?, hinv.1]; rfl
  have e2 : ref_alpha.getLast? = ref_alpha[n]? := by
    rw [List.getLast?_eq_getElem?, hinv.2.1]; rfl
  simp only [objective_from, hmark, hchart, e1, e2, ha, hr]

theorem isSegmentation_two (ds : List Nat) :
    IsSegmentation 2 2 ds ↔ ds = [2] ∨ ds = [1, 1] := by
  constructor
  · intro h
    cases ds with
    | nil => have := h.2; simp at this
    | cons d rest =>
        have h1 := h.1 d (List.mem_cons_self _ _)
        have h2 := h.2
        simp at h2
        have hrest : ∀ x ∈ rest, 1 ≤ x ∧ x ≤ 2 := fun x hx => h.1 x (List.mem_cons_of_mem _ hx)
        rcases Nat.eq_or_lt_of_le h1.2 with hd | hd
        · subst hd
          have := isSegmentation_zero 2 rest ⟨hrest, by omega⟩
          subst this
          exact Or.inl rfl
        · have hd1 : d = 1 := by omega
          subst hd1
          have := isSegmentation_one 2 rest ⟨hrest, by omega⟩
          subst this
          exact Or.inr rfl
  · rintro (rfl | rfl) <;> simp [IsSegmentation]

theorem objective_from_gold_real (logsumexp : List ℝ → ℝ) (hlse : IsLogSumExp logsumexp)
    (factor : Nat → Nat → ℝ) (unset : ℝ) (L n : Nat) (gold : List Nat)
    (hg : IsSegmentation L n gold) (hn : 1 ≤ n) :
    ∃ a, objective_from logsumexp factor unset L n gold =
        .ok (.loss (a - seg_score factor 0 gold)) ∧
      ∀ S : Finset (List Nat), (∀ ds, ds ∈ S ↔ IsSegmentation L n ds) →
        Real.exp a = ∑ ds in S, Real.exp (seg_score factor 0 ds) := by
  obtain ⟨is_ref, alpha, ref_alpha, _, _, _, hinv, _, _, hobj⟩ :=
    objective_from_gold logsumexp factor unset L n gold hg hn
  have hL : 1 ≤ L := by
    cases gold with
    | nil => have := hg.2; simp at this; omega
    | cons d _ => have := hg.1 d (List.mem_cons_self _ _); omega
  refine ⟨_, hobj, ?_⟩
  intro S hS
  choose T hT using exists_segmentation_finset L
  have hST : S = T n := by
    ext ds
    rw [hS, hT]
  rw [hST]
  exact refChart_partition logsumexp hlse factor is_ref unset L n alpha ref_alpha hL hinv T hT
    n (le_refl _)

theorem exp_sum_ge_gold (factor : Nat → Nat → ℝ) (S : Finset (List Nat)) (gold : List Nat)
    (hgold : gold ∈ S) :
    Real.exp (seg_score factor 0 gold) ≤ ∑ ds in S, Real.exp (seg_score factor 0 ds) :=
  Finset.single_le_sum (f := fun ds => Real.exp (seg_score factor 0 ds))
    (fun _ _ => le_of_lt (Real.exp_pos _)) hgold

/-- C3: in `objective`, for every real-valued `factor`, `n_chars >= 1` and
`max_seg_len >= 1`, whenever the reference marking lets the chart be built, the chart loop
ends without fault and the final cell `alpha[n_chars]` is the logarithm of the sum, over
all segmentations of `[0, n_chars)` into consecutive spans of lengths `1 .. max_seg_len`,
of the exponential of the summed `factor` of the spans. -/
theorem objective_alpha_log_partition (logsumexp : List ℝ → ℝ)
    (hlse : IsLogSumExp logsumexp) (factor : Nat → Nat → ℝ) (unset : ℝ)
    (max_seg_len n_chars : Nat) (hn : 1 ≤ n_chars) (hL : 1 ≤ max_seg_len)
    (segmentation : List Nat) (is_ref : Nat → Nat → Bool)
    (hmark : mark_refs n_chars max_seg_len segmentation 0 (fun _ _ => false) =
      .ok (some is_ref))
    (S : Finset (List Nat)) (hS : ∀ ds, ds ∈ S ↔ IsSegmentation max_seg_len n_chars ds) :
    ∃ alpha ref_alpha,
      objective_chart logsumexp factor is_ref unset max_seg_len n_chars =
        .ok (alpha, ref_alpha) ∧
      alpha.length = n_chars + 1 ∧
      alpha[n_chars]? =
        some (Real.log (∑ ds in S, Real.exp (seg_score factor 0 ds))) := by
  obtain ⟨alpha, ref_alpha, hchart, hinv⟩ := objective_chart_spec logsumexp factor is_ref
    unset max_seg_len (mark_refs_chain_init n_chars max_seg_len segmentation is_ref hmark)
    n_chars
  refine ⟨alpha, ref_alpha, hchart, hinv.1, ?_⟩
  choose T hT using exists_segmentation_finset max_seg_len
  have hST : S = T n_chars := by
    ext ds
    rw [hS, hT]
  have hp := refChart_partition logsumexp hlse factor is_ref unset max_seg_len n_chars alpha
    ref_alpha hL hinv T hT n_chars (le_refl _)
  have ha : alpha[n_chars]? = some (alpha_at unset alpha n_chars) := by
    have := (hinv.2.2 n_chars hn (le_refl _)).1
    unfold alpha_at
    rw [if_neg (by omega), List.getD_eq_getElem?_getD, this]
    rfl
  rw [ha, hST, ← hp, Real.log_exp]

/-- Witness of C3: two units, window 2, gold segmentation `[2]`, all scores `0`. -/
theorem objective_alpha_log_partition_witness :
    IsLogSumExp (fun f => Real.log ((f.map Real.exp).sum)) ∧
    mark_refs 2 2 [2] 0 (fun _ _ => false) =
      .ok (some (fun i j => if i = 0 ∧ j = 0 + 2 then true else false)) ∧
    (∀ ds, ds ∈ ({[2], [1, 1]} : Finset (List Nat)) ↔ IsSegmentation 2 2 ds) ∧
    ∃ alpha ref_alpha,
      objective_chart (fun f => Real.log ((f.map Real.exp).sum)) (fun _ _ => (0 : ℝ))
          (fun i j => if i = 0 ∧ j = 0 + 2 then true else false) 0 2 2 =
        .ok (alpha, ref_alpha) ∧
      alpha.length = 2 + 1 ∧
      alpha[2]? = some (Real.log (∑ ds in ({[2], [1, 1]} : Finset (List Nat)),
        Real.exp (seg_score (fun _ _ => (0 : ℝ)) 0 ds))) :=
  ⟨fun _ => rfl, rfl, fun ds => by simp [isSegmentation_two],
    objective_alpha_log_partition (fun f => Real.log ((f.map Real.exp).sum))
      (fun _ => rfl) (fun _ _ => (0 : ℝ)) 0 2 2 (by decide) (by decide) [2]
      (fun i j => if i = 0 ∧ j = 0 + 2 then true else false) rfl
      ({[2], [1, 1]} : Finset (List Nat)) (fun ds => by simp [isSegmentation_two])⟩

/-- C5: the loss returned by `objective` is non-negative: for every real-valued `factor`
and every gold segmentation whose durations lie in `1 .. max_seg_len` and sum to
`n_chars >= 1`, `objective` returns `alpha[n_chars] - ref_alpha[n_chars]` and this value is
`>= 0`. -/
theorem objective_loss_nonneg (logsumexp : List ℝ → ℝ) (hlse : IsLogSumExp logsumexp)
    (factor : Nat → Nat → ℝ) (unset : ℝ) (max_seg_len n_chars : Nat) (gold : List Nat)
    (hg : IsSegmentation max_seg_len n_chars gold) (hn : 1 ≤ n_chars) :
    ∃ v, objective_from logsumexp factor unset max_seg_len n_chars gold = .ok (.loss v) ∧
      0 ≤ v := by
  obtain ⟨a, hobj, hpart⟩ :=
    objective_from_gold_real logsumexp hlse factor unset max_seg_len n_chars gold hg hn
  refine ⟨_, hobj, ?_⟩
  obtain ⟨S, hS⟩ := exists_segmentation_finset max_seg_len n_chars
  have h1 := exp_sum_ge_gold factor S gold ((hS gold).2 hg)
  rw [← hpart S hS, Real.exp_le_exp] at h1
  linarith

/-- Witness of C5: three units `a`, `b`, `c` with the single gold span `[0, 3)`. -/
theorem objective_loss_nonneg_witness :
    (IsLogSumExp (fun f => Real.log ((f.map Real.exp).sum)) ∧ IsSegmentation 25 3 [3] ∧
      1 ≤ 3) ∧
    ∃ v, objective_from (fun f => Real.log ((f.map Real.exp).sum))
        (fun i j => ((i : ℝ) - 2 * j)) 0 25 3 [3] = .ok (.loss v) ∧ 0 ≤ v :=
  ⟨⟨fun _ => rfl, by simp [IsSegmentation], by decide⟩,
    objective_loss_nonneg (fun f => Real.log ((f.map Real.exp).sum)) (fun _ => rfl)
      (fun i j => ((i : ℝ) - 2 * j)) 0 25 3 [3] (by simp [IsSegmentation]) (by decide)⟩

theorem walk_segmentation_bounds (space_cid : Nat) (input_units : List InputUnit)
    (rest : List Nat) (j k : Nat) (seg0 seg : List Nat)
    (h : walk_segmentation space_cid input_units rest j k seg0 = .ok seg)
    (h0 : ∀ d ∈ seg0, 1 ≤ d) :
    (∀ d ∈ seg, 1 ≤ d) ∧ seg.sum ≤ seg0.sum + k + rest.length := by
  induction rest generalizing j k seg0 with
  | nil =>
      simp only [walk_segmentation, Except.ok.injEq] at h
      subst h
      exact ⟨h0, by simp⟩
  | cons cid rest ih =>
      unfold walk_segmentation at h
      by_cases hc : cid ≠ space_cid
      · rw [if_pos hc] at h
        cases hu : input_units[j]? with
        | none => rw [hu] at h; simp at h
        | some unit =>
            rw [hu] at h
            simp only at h
            by_cases hk : k + 1 = unit.cids.length
            · rw [if_pos hk] at h
              obtain ⟨a1, a2⟩ := ih _ _ _ h (by
                intro d hd
                rcases List.mem_append.1 hd with hd | hd
                · exact h0 d hd
                · simp at hd; omega)
              refine ⟨a1, ?_⟩
              simp at a2 ⊢
              omega
            · rw [if_neg hk] at h
              obtain ⟨a1, a2⟩ := ih _ _ _ h h0
              refine ⟨a1, ?_⟩
              simp at a2 ⊢
              omega
      · rw [if_neg hc] at h
        obtain ⟨a1, a2⟩ := ih _ _ _ h (by
          intro d hd
          rcases List.mem_append.1 hd with hd | hd
          · exact h0 d hd
          · simp at hd; omega)
        refine ⟨a1, ?_⟩
        simp at a2 ⊢
        omega

/-- C7: for every training instance whose derived gold segmentation holds a duration
greater than `max_seg_len`, `objective` returns the zero loss of line 182: neither
assertion of the reference-marking loop fails and no chart is built.  Every duration of the
derived segmentation starts before `n_chars` and ends at or before `n_chars`, so the spans
up to the first over-long one pass `cur < n_chars` and `cur + dur <= n_chars`. -/
theorem objective_soft_fail {α : Type} [Add α] [Sub α] (logsumexp : List α → α)
    (net : List Nat → Nat → Nat → α) (unset : α) (max_seg_len space_cid : Nat)
    (char_map_get : String → Nat) (input_units : List InputUnit)
    (clean_units : List String) (segmentation : List Nat)
    (hwalk : walk_segmentation space_cid input_units (clean_units.map char_map_get) 1 0 [] =
      .ok segmentation)
    (hlong : ∃ d ∈ segmentation, max_seg_len < d) :
    objective logsumexp net unset max_seg_len space_cid char_map_get input_units
        clean_units = .ok .zeroes ∧
      mark_refs clean_units.length max_seg_len segmentation 0 (fun _ _ => false) =
        .ok none ∧
      ∀ pre dur post, segmentation = pre ++ dur :: post →
        pre.sum < clean_units.length ∧ pre.sum + dur ≤ clean_units.length := by
  obtain ⟨hpos, hsum⟩ := walk_segmentation_bounds space_cid input_units _ 1 0 [] segmentation
    hwalk (by simp)
  simp only [List.sum_nil, List.length_map, Nat.zero_add, Nat.add_zero] at hsum
  have hmark := mark_refs_overlong clean_units.length max_seg_len segmentation 0
    (fun _ _ => false) hpos (by omega) hlong
  refine ⟨?_, hmark, ?_⟩
  · simp only [objective, hwalk, objective_from, List.length_map, hmark]
  · intro pre dur post hseg
    subst hseg
    have := hpos dur (by simp)
    simp at hsum
    omega

/-- Witness of C7: the sentence `abc`, one token of three characters, window 2. -/
theorem objective_soft_fail_witness :
    (walk_segmentation 0 [⟨[]⟩, ⟨[1, 1, 1]⟩] (["a", "b", "c"].map (fun _ => 1)) 1 0 [] =
        .ok [3] ∧ ∃ d ∈ [3], 2 < d) ∧
    (objective List.sum (fun (_ : List Nat) (i j : Nat) => ((i : Int) - 2 * j)) 0 2 0
          (fun _ => 1) [⟨[]⟩, ⟨[1, 1, 1]⟩] ["a", "b", "c"] = .ok .zeroes ∧
      mark_refs ["a", "b", "c"].length 2 [3] 0 (fun _ _ => false) = .ok none ∧
      ∀ pre dur post, [3] = pre ++ dur :: post →
        pre.sum < ["a", "b", "c"].length ∧ pre.sum + dur ≤ ["a", "b", "c"].length) :=
  ⟨⟨rfl, 3, by simp, by decide⟩,
    objective_soft_fail List.sum (fun (_ : List Nat) (i j : Nat) => ((i : Int) - 2 * j)) 0 2 0
      (fun _ => 1) [⟨[]⟩, ⟨[1, 1, 1]⟩] ["a", "b", "c"] [3] rfl ⟨3, by simp, by decide⟩⟩

/-! ## Branch isolation of checkpoint copies -/

theorem history_kept {E : Type} (history added : List E) (p : Nat) (e : E)
    (h : history[p]? = some e) : (history ++ added)[p]? = some e := by
  have hlt : p < history.length := by
    by_contra hge
    rw [List.getElem?_eq_none (by omega)] at h
    exact absurd h (by simp)
  rw [List.getElem?_append_left hlt]
  exact h

/-- C8: for every live checkpoint `c` and every action, `copy_checkpoint(c)` allocates a
new checkpoint, distinct from `c`, holding the fields of `c`.  `perform_action` on that copy
aborts when the action is not legal in the given state; when it is legal it returns, the
copy then holds what the action functor makes of the fields of `c`, every entry of the
three histories that existed before is still in place, and the `s_pointer`, `q_pointer`,
`a_pointer`, `stack` and `buffer` of `c` are unchanged. -/
theorem copy_then_perform_isolated {E S : Type} (is_legal : S → Nat → Bool)
    (sys_func : Nat → Encoders E → StateCheckpointImpl E → FunctorEffect E)
    (action : Nat) (state : S) (memory : ParserMemory E) (c : Nat)
    (ck : StateCheckpointImpl E) (hc : memory.heap[c]? = some (some ck)) :
    ∃ memory1 copy,
      copy_checkpoint memory c = .ok (memory1, copy) ∧ copy ≠ c ∧
      memory1.heap[c]? = some (some ck) ∧ memory1.heap[copy]? = some (some ck) ∧
      (is_legal state action = false →
        perform_action is_legal sys_func action state memory1 copy =
          .error .illegal_action) ∧
      (is_legal state action = true →
        ∃ memory2 ck2,
          perform_action is_legal sys_func action state memory1 copy = .ok memory2 ∧
          memory2.heap[copy]? =
            some (some (sys_func action memory.encoders ck).checkpoint) ∧
          (∀ (p : Nat) (e : E), memory.encoders.s_history[p]? = some e →
            memory2.encoders.s_history[p]? = some e) ∧
          (∀ (p : Nat) (e : E), memory.encoders.q_history[p]? = some e →
            memory2.encoders.q_history[p]? = some e) ∧
          (∀ (p : Nat) (e : E), memory.encoders.a_history[p]? = some e →
            memory2.encoders.a_history[p]? = some e) ∧
          memory2.heap[c]? = some (some ck2) ∧
          ck2.s_pointer = ck.s_pointer ∧ ck2.q_pointer = ck.q_pointer ∧
          ck2.a_pointer = ck.a_pointer ∧ ck2.stack = ck.stack ∧
          ck2.buffer = ck.buffer) := by
  have hlt : c < memory.heap.length := by
    by_contra hge
    rw [List.getElem?_eq_none (by omega)] at hc
    exact absurd hc (by simp)
  have hnew : (memory.heap ++ [some ck])[memory.heap.length]? = some (some ck) :=
    List.getElem?_concat_length _ _
  have hold : (memory.heap ++ [some ck])[c]? = some (some ck) := by
    rw [List.getElem?_append_left hlt]
    exact hc
  refine ⟨{ memory with heap := memory.heap ++ [some ck] }, memory.heap.length,
    by simp only [copy_checkpoint, hc], by omega, hold, hnew, ?_, ?_⟩
  · intro hill
    simp only [perform_action, hill, if_true]
  · intro hleg
    refine ⟨_, ck, by simp only [perform_action, hleg, hnew]; rfl, ?_, ?_, ?_, ?_, ?_,
      rfl, rfl, rfl, rfl, rfl⟩
    · simp only
      rw [List.getElem?_set_self (by simp)]
    · intro p e h
      exact history_kept _ _ p e h
    · intro p e h
      exact history_kept _ _ p e h
    · intro p e h
      exact history_kept _ _ p e h
    · simp only
      rw [List.getElem?_set_ne (by omega)]
      exact hold

/-- Witness of C8: the sample memory, the shift on the copy of its checkpoint, in a
configuration where the shift is legal. -/
theorem copy_then_perform_isolated_witness :
    sample_memory.heap[0]? = some (some sample_checkpoint) ∧
    ∃ memory1 copy,
      copy_checkpoint sample_memory 0 = .ok (memory1, copy) ∧ copy ≠ 0 ∧
      memory1.heap[0]? = some (some sample_checkpoint) ∧
      memory1.heap[copy]? = some (some sample_checkpoint) ∧
      (sample_legal 1 0 = false →
        perform_action sample_legal sample_functor 0 1 memory1 copy =
          .error .illegal_action) ∧
      (sample_legal 1 0 = true →
        ∃ memory2 ck2,
          perform_action sample_legal sample_functor 0 1 memory1 copy = .ok memory2 ∧
          memory2.heap[copy]? =
            some (some (sample_functor 0 sample_memory.encoders sample_checkpoint).checkpoint) ∧
          (∀ (p : Nat) (e : Nat), sample_memory.encoders.s_history[p]? = some e →
            memory2.encoders.s_history[p]? = some e) ∧
          (∀ (p : Nat) (e : Nat), sample_memory.encoders.q_history[p]? = some e →
            memory2.encoders.q_history[p]? = some e) ∧
          (∀ (p : Nat) (e : Nat), sample_memory.encoders.a_history[p]? = some e →
            memory2.encoders.a_history[p]? = some e) ∧
          memory2.heap[0]? = some (some ck2) ∧
          ck2.s_pointer = sample_checkpoint.s_pointer ∧
          ck2.q_pointer = sample_checkpoint.q_pointer ∧
          ck2.a_pointer = sample_checkpoint.a_pointer ∧
          ck2.stack = sample_checkpoint.stack ∧
          ck2.buffer = sample_checkpoint.buffer) :=
  ⟨rfl, copy_then_perform_isolated sample_legal sample_functor 0 1 sample_memory 0
    sample_checkpoint rfl⟩

/-! ## The read loop of the test driver -/

theorem starts_with_action_head (buffer : List Char)
    (h : starts_with buffer ['#', 'A', 'C', 'T', 'I', 'O', 'N', ' '] = true) :
    buffer ≠ [] ∧ buffer.head? = some '#' := by
  cases buffer with
  | nil => simp [starts_with] at h
  | cons c cs =>
      simp only [starts_with, Bool.and_eq_true, beq_iff_eq] at h
      simp [h.1]

theorem read_line_inv (lexical_cast : List Char → Option Nat) (BAD_HED : Nat)
    (BAD0 : List Char) (st : DriverState) (line : List Char) (st2 : DriverState)
    (hinv : SentinelInv BAD_HED BAD0 st)
    (h : read_line lexical_cast BAD_HED BAD0 st line = .ok st2) :
    SentinelInv BAD_HED BAD0 st2 := by
  obtain ⟨i1, i2, i3, i4⟩ := hinv
  unfold read_line at h
  split_ifs at h with h1 h2 h3
  · simp only [Except.ok.injEq] at h
    subst h
    simp [SentinelInv]
  · split at h
    · simp at h
    · simp only [Except.ok.injEq] at h
      subst h
      exact ⟨i1, i2, i3, i4⟩
  · simp only [Except.ok.injEq] at h
    subst h
    exact ⟨i1, i2, i3, i4⟩
  · split at h
    · split_ifs at h with h4
      · simp only [Except.ok.injEq] at h
        subst h
        refine ⟨by simp [i1], by simp [i2], ?_, ?_⟩
        · simp only
          rw [List.getElem?_append_left (by omega)]; exact i3
        · simp only
          rw [List.getElem?_append_left (by omega)]; exact i4
      · split at h
        · simp at h
        · split at h
          · simp at h
          · simp only [Except.ok.injEq] at h
            subst h
            refine ⟨by simp [i1], by simp [i2], ?_, ?_⟩
            · simp only
              rw [List.getElem?_append_left (by omega)]; exact i3
            · simp only
              rw [List.getElem?_append_left (by omega)]; exact i4
    · simp at h

theorem read_loop_inv (lexical_cast : List Char → Option Nat) (BAD_HED : Nat)
    (BAD0 : List Char) (lines : List (List Char)) (st st2 : DriverState)
    (hinv : SentinelInv BAD_HED BAD0 st)
    (h : read_loop lexical_cast BAD_HED BAD0 st lines = .ok st2) :
    SentinelInv BAD_HED BAD0 st2 := by
  induction lines generalizing st with
  | nil =>
      simp only [read_loop, Except.ok.injEq] at h
      subst h
      exact hinv
  | cons line rest ih =>
      unfold read_loop at h
      split at h
      · simp at h
      · rename_i st1 h1
        exact ih st1 (read_line_inv lexical_cast BAD_HED BAD0 st line st1 hinv h1) h

/-- C10 (amended): every trimmed line is of exactly one of four kinds.  An empty line
tests the accumulated sentence and resets `tokens`, `postags`, `actions` to empty and
`heads`, `deprels` to the sentinels; a line starting with `#ACTION ` whose remainder
`lexical_cast` accepts appends the parsed id to `actions` and changes nothing else; any
other line starting with `#` changes nothing; every other line is split on tab and space
and, when it has the fields 1, 3 and 6 (and field 7 and a head that `lexical_cast` accepts
unless field 6 is `_`), appends one word, one POS, one head and one relation, `BAD_HED` and
`BAD0` for the head field `_`.  In every state the loop reaches, `heads` and `deprels` have
length `tokens.size() + 1` with the sentinel at index 0. -/
theorem read_line_four_kinds (lexical_cast : List Char → Option Nat) (BAD_HED : Nat)
    (BAD0 : List Char) :
    (∀ (st : DriverState) (line : List Char),
      ((is_blank (trim line) ∨ is_action_line (trim line) ∨ is_comment (trim line) ∨
          is_data_line (trim line)) ∧
        ¬ (is_blank (trim line) ∧ is_action_line (trim line)) ∧
        ¬ (is_blank (trim line) ∧ is_comment (trim line)) ∧
        ¬ (is_blank (trim line) ∧ is_data_line (trim line)) ∧
        ¬ (is_action_line (trim line) ∧ is_comment (trim line)) ∧
        ¬ (is_action_line (trim line) ∧ is_data_line (trim line)) ∧
        ¬ (is_comment (trim line) ∧ is_data_line (trim line))) ∧
      (is_blank (trim line) →
        read_line lexical_cast BAD_HED BAD0 st line =
          .ok { tokens := [], postags := [], heads := [BAD_HED], deprels := [BAD0],
                actions := [], sid := st.sid + 1,
                tested := st.tested ++
                  [(st.tokens, st.postags, st.heads, st.deprels, st.actions)] }) ∧
      (is_action_line (trim line) → ∀ id, lexical_cast ((trim line).drop 8) = some id →
        read_line lexical_cast BAD_HED BAD0 st line =
          .ok { st with actions := st.actions ++ [id] }) ∧
      (is_comment (trim line) → read_line lexical_cast BAD_HED BAD0 st line = .ok st) ∧
      (is_data_line (trim line) → ∀ word pos head,
        (split_fields (trim line) [])[1]? = some word →
        (split_fields (trim line) [])[3]? = some pos →
        (split_fields (trim line) [])[6]? = some head →
        (head = ['_'] →
          read_line lexical_cast BAD_HED BAD0 st line =
            .ok { st with tokens := st.tokens ++ [word], postags := st.postags ++ [pos],
                          heads := st.heads ++ [BAD_HED],
                          deprels := st.deprels ++ [BAD0] }) ∧
        (head ≠ ['_'] → ∀ h rel, lexical_cast head = some h →
          (split_fields (trim line) [])[7]? = some rel →
          read_line lexical_cast BAD_HED BAD0 st line =
            .ok { st with tokens := st.tokens ++ [word], postags := st.postags ++ [pos],
                          heads := st.heads ++ [h], deprels := st.deprels ++ [rel] }))) ∧
    SentinelInv BAD_HED BAD0 (initial_state BAD_HED BAD0) ∧
    ∀ lines st, read_loop lexical_cast BAD_HED BAD0 (initial_state BAD_HED BAD0) lines =
      .ok st → SentinelInv BAD_HED BAD0 st := by
  refine ⟨?_, by simp [SentinelInv, initial_state], ?_⟩
  · intro st line
    have hact : is_action_line (trim line) →
        trim line ≠ [] ∧ (trim line).head? = some '#' :=
      starts_with_action_head (trim line)
    have hhead : (trim line).head? = some '#' → trim line ≠ [] := by
      intro h hnil
      rw [hnil] at h
      simp at h
    refine ⟨⟨?_, ?_, ?_, ?_, ?_, ?_, ?_⟩, ?_, ?_, ?_, ?_⟩
    · by_cases h1 : trim line = []
      · exact Or.inl h1
      · by_cases h2 : starts_with (trim line) ['#', 'A', 'C', 'T', 'I', 'O', 'N', ' '] = true
        · exact Or.inr (Or.inl h2)
        · by_cases h3 : (trim line).head? = some '#'
          · exact Or.inr (Or.inr (Or.inl ⟨by simpa using h2, h3⟩))
          · exact Or.inr (Or.inr (Or.inr ⟨h1, h3⟩))
    · rintro ⟨h1, h2⟩
      exact (hact h2).1 h1
    · rintro ⟨h1, _, h3⟩
      exact hhead h3 h1
    · rintro ⟨h1, h2, _⟩
      exact h2 h1
    · rintro ⟨h1, h2, _⟩
      unfold is_action_line at h1
      rw [h1] at h2
      simp at h2
    · rintro ⟨h1, _, h3⟩
      exact h3 (hact h1).2
    · rintro ⟨⟨_, h2⟩, _, h3⟩
      exact h3 h2
    · intro h1
      unfold is_blank at h1
      simp only [read_line, h1, if_true]
    · intro h1 id hid
      have h0 := (hact h1).1
      unfold is_action_line at h1
      simp only [read_line, h0, h1, hid, if_true, if_false]
    · rintro ⟨h1, h2⟩
      have h0 := hhead h2
      simp only [read_line, h0, h1, h2, if_true, if_false, Bool.false_eq_true]
    · rintro ⟨h1, h2⟩ word pos head e1 e3 e6
      have h3 : starts_with (trim line) ['#', 'A', 'C', 'T', 'I', 'O', 'N', ' '] = false := by
        by_contra hne
        exact h2 (hact (by simpa [is_action_line] using hne)).2
      constructor
      · intro hu
        simp only [read_line, h1, h2, h3, e1, e3, e6, hu, if_true, if_false,
          Bool.false_eq_true]
      · intro hu h rel eh e7
        simp only [read_line, h1, h2, h3, e1, e3, e6, hu, eh, e7, if_false,
          Bool.false_eq_true]
  · intro lines st h
    exact read_loop_inv lexical_cast BAD_HED BAD0 lines _ st
      (by simp [SentinelInv, initial_state]) h

/-- C10, as stated, fails on a line of the fourth kind with too few fields: the trimmed
line `x` is not empty and does not start with `#`, it splits into the single field `x`, and
the read of `data[1]` is past the end of `data`: no word, POS, head or relation is
appended. -/
theorem read_line_short_data_line :
    is_data_line (trim ['x']) ∧
    split_fields (trim ['x']) [] = [['x']] ∧
    read_line (fun _ => none) 0 ['B'] (initial_state 0 ['B']) ['x'] =
      .error .out_of_range :=
  ⟨⟨by decide, by decide⟩, rfl, rfl⟩

/-! ## The derivation of the gold segmentation -/

theorem walk_segmentation_token (space_cid : Nat) (input_units : List InputUnit)
    (unit : InputUnit) (j : Nat) (hj : input_units[j]? = some unit) (raw rest : List Nat)
    (k : Nat) (seg : List Nat) (hraw : raw ≠ []) (hk : k + raw.length = unit.cids.length)
    (hns : ∀ cid ∈ raw, cid ≠ space_cid) :
    walk_segmentation space_cid input_units (raw ++ rest) j k seg =
      walk_segmentation space_cid input_units rest (j + 1) 0 (seg ++ [unit.cids.length]) := by
  induction raw generalizing k with
  | nil => exact absurd rfl hraw
  | cons cid more ih =>
      have hc : cid ≠ space_cid := hns cid (List.mem_cons_self _ _)
      simp only [List.cons_append, walk_segmentation, hj]
      rw [if_pos hc]
      simp only [List.length_cons] at hk
      by_cases hmore : more = []
      · subst hmore
        simp only [List.length_nil] at hk
        rw [if_pos (by omega)]
        rfl
      · have hlen : 1 ≤ more.length := by
          cases more with
          | nil => exact absurd rfl hmore
          | cons _ _ => simp
        rw [if_neg (by omega)]
        exact ih (k + 1) hmore (by omega) (fun c hc2 => hns c (List.mem_cons_of_mem _ hc2))

theorem walk_segmentation_pieces (space_cid : Nat) (pieces : List Piece)
    (hwf : ∀ piece ∈ pieces, piece.WellFormed space_cid) (before : List InputUnit)
    (seg : List Nat) :
    walk_segmentation space_cid (before ++ piece_units pieces)
        (layout_cids space_cid pieces) before.length 0 seg =
      .ok (seg ++ pieces.map Piece.duration) := by
  induction pieces generalizing before seg with
  | nil => simp [walk_segmentation, layout_cids]
  | cons piece rest ih =>
      have hrest : ∀ q ∈ rest, q.WellFormed space_cid :=
        fun q hq => hwf q (List.mem_cons_of_mem _ hq)
      cases piece with
      | space =>
          have e : layout_cids space_cid (Piece.space :: rest) =
              space_cid :: layout_cids space_cid rest := rfl
          have e2 : piece_units (Piece.space :: rest) = piece_units rest := rfl
          rw [e, e2]
          simp only [walk_segmentation, ne_eq, not_true_eq_false, if_false]
          rw [ih hrest]
          simp [Piece.duration]
      | token unit raw =>
          obtain ⟨h1, h2, h3⟩ := hwf _ (List.mem_cons_self _ _)
          have hraw : raw ≠ [] := by
            intro h
            rw [h] at h2
            simp at h2
            omega
          have hget : (before ++ unit :: piece_units rest)[before.length]? = some unit := by
            rw [List.getElem?_append_right (le_refl _)]
            simp
          have e0 : layout_cids space_cid (Piece.token unit raw :: rest) =
              raw ++ layout_cids space_cid rest := rfl
          have e1 : piece_units (Piece.token unit raw :: rest) = unit :: piece_units rest :=
            rfl
          rw [e0, e1]
          rw [walk_segmentation_token space_cid _ unit before.length hget raw _ 0 seg
            hraw (by omega) h3]
          have e : before ++ unit :: piece_units rest =
              (before ++ [unit]) ++ piece_units rest := by simp
          have hl : before.length + 1 = (before ++ [unit]).length := by simp
          rw [e, hl, ih hrest]
          simp [Piece.duration]

theorem pieces_duration_sum (space_cid : Nat) (pieces : List Piece)
    (hwf : ∀ piece ∈ pieces, piece.WellFormed space_cid) :
    (pieces.map Piece.duration).sum = (layout_cids space_cid pieces).length := by
  induction pieces with
  | nil => rfl
  | cons piece rest ih =>
      have hrest := ih (fun q hq => hwf q (List.mem_cons_of_mem _ hq))
      cases piece with
      | space => simp [Piece.duration, Piece.raw_cids, layout_cids, hrest]; omega
      | token unit raw =>
          obtain ⟨_, h2, _⟩ := hwf _ (List.mem_cons_self _ _)
          simp [Piece.duration, Piece.raw_cids, layout_cids, hrest, h2]

/-- C11: for every instance whose cleaned raw sentence is laid out as space units and
whole tokens (every token `input_units[1..m]` has at least one character, its characters
are the next non-space units of the sentence, and no space unit lies between them), the
walk of `objective` derives the list holding, from left to right, one entry `1` per space
unit and one entry `cids.size()` per token; its entries sum to `n_chars`, and the walk
ends without indexing `input_units` past `m`. -/
theorem walk_segmentation_gold (space_cid : Nat) (root : InputUnit) (pieces : List Piece)
    (char_map_get : String → Nat) (clean_units : List String)
    (hwf : ∀ piece ∈ pieces, piece.WellFormed space_cid)
    (hraw : clean_units.map char_map_get = layout_cids space_cid pieces) :
    walk_segmentation space_cid (root :: piece_units pieces)
        (clean_units.map char_map_get) 1 0 [] = .ok (pieces.map Piece.duration) ∧
      (pieces.map Piece.duration).sum = clean_units.length := by
  constructor
  · have := walk_segmentation_pieces space_cid pieces hwf [root] []
    rw [hraw]
    simpa using this
  · rw [pieces_duration_sum space_cid pieces hwf, ← hraw, List.length_map]

/-- Witness of C11: the sentence `ab c` with the tokens `ab` and `c`. -/
theorem walk_segmentation_gold_witness :
    ((∀ piece ∈ [Piece.token ⟨[1, 2]⟩ [1, 2], Piece.space, Piece.token ⟨[3]⟩ [3]],
        piece.WellFormed 0) ∧
      ["a", "b", " ", "c"].map
          (fun ch => if ch = " " then 0 else if ch = "a" then 1 else if ch = "b" then 2 else 3) =
        layout_cids 0 [Piece.token ⟨[1, 2]⟩ [1, 2], Piece.space, Piece.token ⟨[3]⟩ [3]]) ∧
    (walk_segmentation 0
        (⟨[]⟩ :: piece_units [Piece.token ⟨[1, 2]⟩ [1, 2], Piece.space, Piece.token ⟨[3]⟩ [3]])
        (["a", "b", " ", "c"].map
          (fun ch => if ch = " " then 0 else if ch = "a" then 1 else if ch = "b" then 2 else 3))
        1 0 [] =
        .ok ([Piece.token ⟨[1, 2]⟩ [1, 2], Piece.space, Piece.token ⟨[3]⟩ [3]].map
          Piece.duration) ∧
      ([Piece.token ⟨[1, 2]⟩ [1, 2], Piece.space, Piece.token ⟨[3]⟩ [3]].map
        Piece.duration).sum = ["a", "b", " ", "c"].length) :=
  ⟨⟨by simp [Piece.WellFormed], by simp [layout_cids, Piece.raw_cids]⟩,
    walk_segmentation_gold 0 ⟨[]⟩ [Piece.token ⟨[1, 2]⟩ [1, 2], Piece.space, Piece.token ⟨[3]⟩ [3]]
      _ ["a", "b", " ", "c"] (by simp [Piece.WellFormed])
      (by simp [layout_cids, Piece.raw_cids])⟩

/-! ## The reference cell read by the return statement -/

theorem spans_from_end_le (start : Nat) (durs : List Nat) (s : Nat × Nat)
    (h : s ∈ spans_from start durs) : s.2 ≤ start + durs.sum := by
  induction durs generalizing start with
  | nil => simp [spans_from] at h
  | cons d ds ih =>
      simp only [spans_from, List.mem_cons] at h
      rcases h with rfl | h
      · simp
      · have := ih _ h
        simp only [List.sum_cons]
        omega

theorem objective_from_cells {α : Type} [AddCommGroup α] (logsumexp : List α → α)
    (factor : Nat → Nat → α) (unset : α) (L n : Nat) (seg : List Nat)
    (hd : ∀ d ∈ seg, 1 ≤ d ∧ d ≤ L) (hs : seg.sum ≤ n) (hn : 1 ≤ n) :
    ∃ is_ref alpha ref_alpha,
      mark_refs n L seg 0 (fun _ _ => false) = .ok (some is_ref) ∧
      objective_chart logsumexp factor is_ref unset L n = .ok (alpha, ref_alpha) ∧
      ((∃ r, ref_alpha[n]? = some (some r)) ↔ seg.sum = n) ∧
      (∀ i j, 1 ≤ i → i < j → j ≤ n → is_ref i j = true →
        ∃ r, ref_alpha[i]? = some (some r)) ∧
      (seg.sum = n → ∃ v, objective_from logsumexp factor unset L n seg = .ok (.loss v)) ∧
      (seg.sum < n → ref_alpha[n]? = some none ∧
        objective_from logsumexp factor unset L n seg = .error .unassigned) := by
  obtain ⟨is_ref, hmark⟩ := mark_refs_ok n L seg 0 (fun _ _ => false) hd (by omega)
  have hiff : ∀ i j, is_ref i j = true ↔ (i, j) ∈ spans_from 0 seg := by
    intro i j
    rw [(mark_refs_spans n L seg 0 _ is_ref hmark).2 i j]
    simp
  have hchain := mark_refs_chain_init n L seg is_ref hmark
  obtain ⟨alpha, ref_alpha, hchart, hinv⟩ :=
    objective_chart_spec logsumexp factor is_ref unset L hchain n
  have hshort : seg.sum < n → ref_alpha[n]? = some none := by
    intro hlt
    apply (hinv.2.2 n hn (le_refl _)).2.2
    intro i _
    by_contra hne
    have hmem := (hiff i n).1 (by simpa using hne)
    have := spans_from_end_le 0 seg (i, n) hmem
    simp only [Nat.zero_add] at this
    omega
  have hfull : seg.sum = n → ref_alpha[n]? = some (some (seg_score factor 0 seg)) := by
    intro heq
    have hgold := refChart_gold logsumexp factor is_ref unset L n alpha ref_alpha hinv seg
      (fun d hd2 => (hd d hd2).1) hs (fun s hs2 => (hiff s.1 s.2).2 hs2)
    rw [heq] at hgold
    unfold ref_at at hgold
    rw [if_neg (by omega), List.getD_eq_getElem?_getD] at hgold
    have hlt : n < ref_alpha.length := by rw [hinv.2.1]; omega
    rw [List.getElem?_eq_getElem hlt] at hgold ⊢
    simp only [Option.getD_some] at hgold
    rw [hgold]
  refine ⟨is_ref, alpha, ref_alpha, hmark, hchart, ?_, ?_, ?_, ?_⟩
  · constructor
    · rintro ⟨r, hr⟩
      by_contra hne
      rw [hshort (by omega)] at hr
      simp at hr
    · intro heq
      exact ⟨_, hfull heq⟩
  · intro i j hi hij hj href
    obtain ⟨r, hr, _⟩ := (hinv.2.2 j (by omega) hj).2.1 i hij href
    refine ⟨r, ?_⟩
    unfold ref_at at hr
    rw [if_neg (by omega), List.getD_eq_getElem?_getD] at hr
    have hlt : i < ref_alpha.length := by rw [hinv.2.1]; omega
    rw [List.getElem?_eq_getElem hlt] at hr ⊢
    simp only [Option.getD_some] at hr
    rw [hr]
  · intro heq
    obtain ⟨_, _, _, _, _, _, _, _, _, hobj⟩ :=
      objective_from_gold logsumexp factor unset L n seg ⟨hd, heq⟩ hn
    exact ⟨_, hobj⟩
  · intro hlt
    refine ⟨hshort hlt, ?_⟩
    have e2 : ref_alpha.getLast? = ref_alpha[n]? := by
      rw [List.getLast?_eq_getElem?, hinv.2.1]; rfl
    simp only [objective_from, hmark, hchart, e2, hshort hlt]
    cases alpha.getLast? <;> rfl

/-- C12: in `objective`, when every derived gold duration is at most `max_seg_len` and
`n_chars >= 1`, the chart is built and its loop reads no unassigned cell (every
`ref_alpha[i]` read for a marked span was assigned at the earlier position `i`); the cell
`ref_alpha[n_chars]` read by the return statement is assigned if and only if the durations
sum to `n_chars`.  When they sum to `n_chars` a loss is returned; when they sum to less,
`ref_alpha[n_chars]` was never assigned and the return statement reads it: no zero loss is
returned. -/
theorem objective_ref_cell_assigned {α : Type} [AddCommGroup α] (logsumexp : List α → α)
    (net : List Nat → Nat → Nat → α) (unset : α) (max_seg_len space_cid : Nat)
    (char_map_get : String → Nat) (input_units : List InputUnit)
    (clean_units : List String) (segmentation : List Nat)
    (hwalk : walk_segmentation space_cid input_units (clean_units.map char_map_get) 1 0 [] =
      .ok segmentation)
    (hle : ∀ d ∈ segmentation, d ≤ max_seg_len) (hn : 1 ≤ clean_units.length) :
    segmentation.sum ≤ clean_units.length ∧
    ∃ is_ref alpha ref_alpha,
      mark_refs clean_units.length max_seg_len segmentation 0 (fun _ _ => false) =
        .ok (some is_ref) ∧
      objective_chart logsumexp (net (clean_units.map char_map_get)) is_ref unset max_seg_len
        clean_units.length = .ok (alpha, ref_alpha) ∧
      ((∃ r, ref_alpha[clean_units.length]? = some (some r)) ↔
        segmentation.sum = clean_units.length) ∧
      (∀ i j, 1 ≤ i → i < j → j ≤ clean_units.length → is_ref i j = true →
        ∃ r, ref_alpha[i]? = some (some r)) ∧
      (segmentation.sum = clean_units.length →
        ∃ v, objective logsumexp net unset max_seg_len space_cid char_map_get input_units
          clean_units = .ok (.loss v)) ∧
      (segmentation.sum < clean_units.length →
        ref_alpha[clean_units.length]? = some none ∧
        objective logsumexp net unset max_seg_len space_cid char_map_get input_units
          clean_units = .error .unassigned) := by
  obtain ⟨hpos, hsum⟩ := walk_segmentation_bounds space_cid input_units _ 1 0 [] segmentation
    hwalk (by simp)
  simp only [List.sum_nil, List.length_map, Nat.zero_add, Nat.add_zero] at hsum
  refine ⟨hsum, ?_⟩
  obtain ⟨is_ref, alpha, ref_alpha, h1, h2, h3, h4, h5, h6⟩ :=
    objective_from_cells logsumexp (net (clean_units.map char_map_get)) unset max_seg_len
      clean_units.length segmentation (fun d hd => ⟨hpos d hd, hle d hd⟩) hsum hn
  refine ⟨is_ref, alpha, ref_alpha, h1, h2, h3, h4, ?_, ?_⟩
  · intro heq
    obtain ⟨v, hv⟩ := h5 heq
    exact ⟨v, by simp only [objective, hwalk, List.length_map]; exact hv⟩
  · intro hlt
    obtain ⟨a, b⟩ := h6 hlt
    exact ⟨a, by simp only [objective, hwalk, List.length_map]; exact b⟩

/-- Witness of C12: the raw sentence `a b` with the single token `a b`, whose three
characters include the space.  The walk derives `[1]`, which sums to less than `n_chars = 3`,
and the return statement reads the never assigned `ref_alpha[3]`. -/
theorem objective_ref_cell_assigned_witness :
    (walk_segmentation 0 [⟨[]⟩, ⟨[1, 0, 1]⟩]
        (["a", " ", "b"].map (fun ch => if ch = " " then 0 else 1)) 1 0 [] = .ok [1] ∧
      (∀ d ∈ [1], d ≤ 25) ∧ 1 ≤ ["a", " ", "b"].length) ∧
    [1].sum < ["a", " ", "b"].length ∧
    objective List.sum (fun (_ : List Nat) (i j : Nat) => ((i : Int) - 2 * j)) 0 25 0
        (fun ch => if ch = " " then 0 else 1) [⟨[]⟩, ⟨[1, 0, 1]⟩] ["a", " ", "b"] =
      .error .unassigned := by
  have hw : walk_segmentation 0 [⟨[]⟩, ⟨[1, 0, 1]⟩]
      (["a", " ", "b"].map (fun ch => if ch = " " then 0 else 1)) 1 0 [] = .ok [1] := by
    simp [walk_segmentation]
  obtain ⟨_, _, _, _, _, _, _, _, _, h⟩ :=
    objective_ref_cell_assigned List.sum
      (fun (_ : List Nat) (i j : Nat) => ((i : Int) - 2 * j)) 0 25 0
      (fun ch => if ch = " " then 0 else 1) [⟨[]⟩, ⟨[1, 0, 1]⟩] ["a", " ", "b"] [1] hw
      (by decide) (by decide)
  exact ⟨⟨hw, by decide, by decide⟩, by decide, (h (by decide)).2⟩

/-! ## The windows of `decode` and `objective` -/

section Windows

variable {α : Type} [Add α] [LT α] [DecidableRel (fun a b : α => a < b)]

theorem decode_i_start_zero (j : Nat) : decode_i_start 0 j = j := by
  simp [decode_i_start]

theorem decode_step_zero (factor : Nat → Nat → α) (unset : α) (j : Nat)
    (st : List α × List (Nat × Nat)) :
    decode_step factor unset 0 j st = .error .assert_result := by
  simp [decode_step, decode_candidates, decode_i_start_zero]

theorem decode_chart_zero (factor : Nat → Nat → α) (unset : α) (k : Nat) :
    decode_chart factor unset 0 (k + 1) = .error .assert_result := by
  induction k with
  | zero => simp [decode_chart, decode_step_zero]
  | succ k ih =>
      rw [decode_chart, ih]

theorem i_start_eq (L j : Nat) (hL : 1 ≤ L) :
    decode_i_start L j = j - L ∧ objective_i_start L j = j - L := by
  unfold decode_i_start objective_i_start
  constructor
  · split_ifs <;> omega
  · split_ifs <;> omega

end Windows

/-- C13: with `max_seg_len = 0` the window of `decode` is empty at every `j`
(`i_start = j`), so on every input with `n_chars >= 1` `decode` fails the assertion
`f.size() > 0`, at `j = 1`; the window of `objective` is then unbounded (`i_start = 0`), yet
`objective` returns the zero loss for every instance whose derived gold segmentation is not
empty.  For every `max_seg_len >= 1` both operations visit the same start positions
`max(0, j - max_seg_len), ..., j - 1` at every `j`. -/
theorem max_seg_len_zero_windows {α : Type} [Add α] [Sub α] [LT α]
    [DecidableRel (fun a b : α => a < b)] (logsumexp : List α → α)
    (net : List Nat → Nat → Nat → α) (unset : α) (space_cid : Nat)
    (char_map : String → Option Nat) (unk_cid : Nat) (char_map_get : String → Nat)
    (input_units : List InputUnit) :
    (∀ j, decode_i_start 0 j = j) ∧
    (∀ (factor : Nat → Nat → α) (alpha : List α) (j : Nat),
      decode_candidates factor unset alpha j (decode_i_start 0 j) = ([], [])) ∧
    (∀ factor : Nat → Nat → α,
      decode_chart factor unset 0 0 = .ok ([unset], [(0, 0)]) ∧
      decode_chart factor unset 0 1 = .error .assert_result) ∧
    (∀ clean_units output, 1 ≤ clean_units.length →
      decode net unset 0 space_cid char_map unk_cid clean_units output =
        .error .assert_result) ∧
    (∀ j, objective_i_start 0 j = 0 ∧ objective_window 0 j = List.range' 0 j) ∧
    (∀ clean_units segmentation,
      walk_segmentation space_cid input_units (clean_units.map char_map_get) 1 0 [] =
        .ok segmentation →
      segmentation ≠ [] →
      objective logsumexp net unset 0 space_cid char_map_get input_units clean_units =
        .ok .zeroes) ∧
    ∀ L j, 1 ≤ L →
      decode_i_start L j = j - L ∧ objective_i_start L j = j - L ∧
      (∀ (factor : Nat → Nat → α) (alpha : List α),
        (decode_candidates factor unset alpha j (decode_i_start L j)).2 =
          (objective_window L j).map (fun i => (i, j))) ∧
      ∀ i, i ∈ objective_window L j ↔ j - L ≤ i ∧ i < j := by
  refine ⟨decode_i_start_zero, ?_, ?_, ?_, ?_, ?_, ?_⟩
  · intro factor alpha j
    simp [decode_candidates, decode_i_start_zero]
  · intro factor
    exact ⟨rfl, decode_chart_zero factor unset 0⟩
  · intro clean_units output hlen
    obtain ⟨k, hk⟩ : ∃ k, clean_units.length = k + 1 := ⟨clean_units.length - 1, by omega⟩
    simp only [decode, hk, decode_chart_zero]
  · intro j
    simp [objective_i_start, objective_window]
  · intro clean_units segmentation hwalk hne
    obtain ⟨hpos, hsum⟩ := walk_segmentation_bounds space_cid input_units _ 1 0 []
      segmentation hwalk (by simp)
    simp only [List.sum_nil, List.length_map, Nat.zero_add, Nat.add_zero] at hsum
    have hlong : ∃ d ∈ segmentation, 0 < d := by
      cases segmentation with
      | nil => exact absurd rfl hne
      | cons d ds => exact ⟨d, List.mem_cons_self _ _, hpos d (List.mem_cons_self _ _)⟩
    have hmark := mark_refs_overlong clean_units.length 0 segmentation 0
      (fun _ _ => false) hpos (by omega) hlong
    simp only [objective, hwalk, objective_from, List.length_map, hmark]
  · intro L j hL
    obtain ⟨h1, h2⟩ := i_start_eq L j hL
    refine ⟨h1, h2, ?_, ?_⟩
    · intro factor alpha
      simp only [decode_candidates, objective_window, h1, h2]
    · intro i
      rw [mem_objective_window, h2]

/-! ## The prior content of `output` -/

theorem decode_with_output {α : Type} [LinearOrderedAddCommGroup α]
    (net : List Nat → Nat → Nat → α) (unset : α) (L space_cid : Nat)
    (char_map : String → Option Nat) (unk_cid : Nat) (clean_units : List String)
    (hL : 1 ≤ L) :
    ∃ alpha it durs,
      decode_chart (net (clean_units.map (decode_cid char_map unk_cid))) unset L
        clean_units.length = .ok (alpha, it) ∧
      IsSegmentation L clean_units.length durs ∧ FollowsIt it durs ∧
      ∀ pre, decode net unset L space_cid char_map unk_cid clean_units pre =
        .ok (tokens_of space_cid (clean_units.map (decode_cid char_map unk_cid)) clean_units
          (spans_from 0 durs) ++ pre.reverse) := by
  obtain ⟨alpha, it, hc, hinv⟩ := decode_chart_argmax
    (net (clean_units.map (decode_cid char_map unk_cid))) unset L hL clean_units.length
  obtain ⟨⟨durs, d1, d2, _⟩, _⟩ := argmaxChart_best _ unset L _ alpha it hinv
    clean_units.length (le_refl _)
  refine ⟨alpha, it, durs, hc, d1, d2, ?_⟩
  intro pre
  have hb := backtrace_follows space_cid (clean_units.map (decode_cid char_map unk_cid))
    clean_units it durs (fun d hd => (d1.1 d hd).1) d2 clean_units.length (le_of_eq d1.2) pre
  rw [d1.2] at hb
  simp only [decode, hc, hb]
  simp

/-- C14: `decode` does not clear `output`.  With `max_seg_len >= 1`, let `T` be the tokens,
from left to right, of the spans the backtrace visits; for every prior content `pre` of
`output`, the vector on return is `T` followed by the reverse of `pre`, so it is exactly
`T` if and only if `output` is empty on entry. -/
theorem decode_keeps_prior_output {α : Type} [LinearOrderedAddCommGroup α]
    (net : List Nat → Nat → Nat → α) (unset : α) (max_seg_len space_cid : Nat)
    (char_map : String → Option Nat) (unk_cid : Nat) (clean_units : List String)
    (hL : 1 ≤ max_seg_len) :
    ∃ alpha it durs T,
      decode_chart (net (clean_units.map (decode_cid char_map unk_cid))) unset max_seg_len
        clean_units.length = .ok (alpha, it) ∧
      IsSegmentation max_seg_len clean_units.length durs ∧ FollowsIt it durs ∧
      T = tokens_of space_cid (clean_units.map (decode_cid char_map unk_cid)) clean_units
        (spans_from 0 durs) ∧
      decode net unset max_seg_len space_cid char_map unk_cid clean_units [] = .ok T ∧
      ∀ pre,
        decode net unset max_seg_len space_cid char_map unk_cid clean_units pre =
          .ok (T ++ pre.reverse) ∧
        (decode net unset max_seg_len space_cid char_map unk_cid clean_units pre = .ok T ↔
          pre = []) := by
  obtain ⟨alpha, it, durs, h1, h2, h3, h4⟩ :=
    decode_with_output net unset max_seg_len space_cid char_map unk_cid clean_units hL
  refine ⟨alpha, it, durs, _, h1, h2, h3, rfl, by simpa using h4 [], ?_⟩
  intro pre
  refine ⟨h4 pre, ?_⟩
  rw [h4 pre]
  simp

/-- Witness of C14: the sentence `ab c` with the default window of 25. -/
theorem decode_keeps_prior_output_witness :
    1 ≤ 25 ∧
    ∃ alpha it durs T,
      decode_chart ((fun (_ : List Nat) (i j : Nat) => ((i : Int) - 2 * j))
          (["a", "b", " ", "c"].map (decode_cid (fun _ => none) 0))) 0 25
        ["a", "b", " ", "c"].length = .ok (alpha, it) ∧
      IsSegmentation 25 ["a", "b", " ", "c"].length durs ∧ FollowsIt it durs ∧
      T = tokens_of 1 (["a", "b", " ", "c"].map (decode_cid (fun _ => none) 0))
        ["a", "b", " ", "c"] (spans_from 0 durs) ∧
      decode (fun (_ : List Nat) (i j : Nat) => ((i : Int) - 2 * j)) 0 25 1 (fun _ => none) 0
        ["a", "b", " ", "c"] [] = .ok T ∧
      ∀ pre,
        decode (fun (_ : List Nat) (i j : Nat) => ((i : Int) - 2 * j)) 0 25 1 (fun _ => none)
          0 ["a", "b", " ", "c"] pre = .ok (T ++ pre.reverse) ∧
        (decode (fun (_ : List Nat) (i j : Nat) => ((i : Int) - 2 * j)) 0 25 1
          (fun _ => none) 0 ["a", "b", " ", "c"] pre = .ok T ↔ pre = []) :=
  ⟨by decide, decode_keeps_prior_output
    (fun (_ : List Nat) (i j : Nat) => ((i : Int) - 2 * j)) 0 25 1 (fun _ => none) 0
    ["a", "b", " ", "c"] (by decide)⟩

/-! ## Rounding in the chart of `decode` -/

/-- C1, as stated for every score function, fails on `float` scores: with
`factor(0, 1) = 2 ^ 24`, `factor(1, 2) = 1` and `factor(0, 2) = 2 ^ 24` the sum
`factor(1, 2) + alpha[1]` of line 116 rounds to `2 ^ 24`, the scan of lines 123-126 keeps
the span `[0, 2)`, and `alpha[2] = 16777216` is less than the score `16777217` of the
segmentation into `[0, 1)` and `[1, 2)`. -/
theorem decode_chart_float_rounding :
    decode_chart rounding_factor ⟨0⟩ 25 2 =
      .ok ([⟨0⟩, ⟨16777216⟩, ⟨16777216⟩], [(0, 0), (0, 1), (0, 2)]) ∧
    (⟨1⟩ + ⟨16777216⟩ : F32) = ⟨16777216⟩ ∧
    IsSegmentation 25 2 [1, 1] ∧
    seg_score (fun i j => (rounding_factor i j).val) 0 [1, 1] = 16777217 ∧
    (16777216 : Int) < seg_score (fun i j => (rounding_factor i j).val) 0 [1, 1] :=
  ⟨rfl, by decide, by simp [IsSegmentation], by decide, by decide⟩

end twpipe
